import Mathlib

/-!
# texture.h: precision-adaptive strided field accessors

A shallow embedding of `include/texture.h`: the type validator `checkTypes`,
the legacy reference-counted `Texture` view, the read-only `SpinorTexture`
accessor, the read-write `Spinor` accessor and the half-precision `saveHalf`.

Conventions of the embedding.

* A scalar is a `Flt`: an exact rational, an infinity or NaN.  Conversions to a
  floating type round to nearest-even at that type's precision and range
  (`roundTo`); signed zeros are not distinguished.
* A value of a CUDA vector type is the list of its components (`Vec`).
* Device arrays are total functions of an integer index; `int` indices are
  mathematical integers (signed overflow is undefined in the source).
* `errorQuda` is fatal: a function that may call it returns `Except QudaError`.
-/

namespace Quda

/-! ## Scalars -/

/-- Scalar value held by a component: an exact rational, plus or minus infinity, or NaN. -/
inductive Flt where
  | fin (q : ℚ)
  | inf (neg : Bool)
  | nan
deriving DecidableEq

/-- Order test in which `fmaxf` is the maximum: NaN lies below every value
(it is skipped, as missing data), then minus infinity, the rationals, plus infinity. -/
def Flt.ble : Flt → Flt → Bool
  | .nan, _ => true
  | .fin _, .nan => false
  | .inf _, .nan => false
  | .inf true, .fin _ => true
  | .inf true, .inf _ => true
  | .fin _, .inf true => false
  | .inf false, .inf true => false
  | .fin _, .inf false => true
  | .inf false, .inf false => true
  | .inf false, .fin _ => false
  | .fin a, .fin b => decide (a ≤ b)

/-- The relation `a ≤ b` of `Flt.ble`. -/
def Flt.le (a b : Flt) : Prop := a.ble b = true

instance (a b : Flt) : Decidable (Flt.le a b) := by
  unfold Flt.le
  infer_instance

/-- CUDA `fabsf`. -/
def fabsf : Flt → Flt
  | .fin q => .fin |q|
  | .inf _ => .inf false
  | .nan => .nan

/-- CUDA `fmaxf(a, b)`: the larger argument; when one argument is NaN the other is returned. -/
def fmaxf : Flt → Flt → Flt
  | .nan, b => b
  | .fin a, .nan => .fin a
  | .inf s, .nan => .inf s
  | .fin a, .fin b => if a ≤ b then .fin b else .fin a
  | .fin a, .inf s => if s then .fin a else .inf false
  | .inf s, .fin b => if s then .fin b else .inf false
  | .inf s, .inf t => .inf (s && t)

/-- Exact IEEE product of two scalars (before rounding): infinity times zero is NaN. -/
def Flt.mul : Flt → Flt → Flt
  | .nan, _ => .nan
  | .fin _, .nan => .nan
  | .inf _, .nan => .nan
  | .fin a, .fin b => .fin (a * b)
  | .fin a, .inf s => if a = 0 then .nan else .inf (if 0 < a then s else !s)
  | .inf s, .fin b => if b = 0 then .nan else .inf (if 0 < b then s else !s)
  | .inf s, .inf t => .inf (s != t)

/-- Exact IEEE quotient of two scalars (before rounding): a nonzero value over zero is an
infinity, zero over zero is NaN. -/
def Flt.div : Flt → Flt → Flt
  | .nan, _ => .nan
  | .fin _, .nan => .nan
  | .inf _, .nan => .nan
  | .fin a, .fin b =>
      if b = 0 then (if a = 0 then .nan else .inf (decide (a < 0))) else .fin (a / b)
  | .fin _, .inf _ => .fin 0
  | .inf s, .fin b => .inf (if 0 ≤ b then s else !s)
  | .inf _, .inf _ => .nan

/-- Nearest integer to a rational, ties to the even neighbour. -/
def roundEven (q : ℚ) : Int :=
  let f := ⌊q⌋
  if q - f < 1 / 2 then f
  else if 1 / 2 < q - f then f + 1
  else if f % 2 = 0 then f else f + 1

/-- Floor of the binary logarithm of a nonzero rational's magnitude. -/
def ilog2 (q : ℚ) : Int := Int.log 2 |q|

/-- Binary floating format: significand bits and exponent range. -/
structure Fmt where
  prec : Nat
  emin : Int
  emax : Int
deriving DecidableEq

/-- IEEE binary32, the format of `float`. -/
def binary32 : Fmt := { prec := 24, emin := -126, emax := 127 }

/-- IEEE binary64, the format of `double`. -/
def binary64 : Fmt := { prec := 53, emin := -1022, emax := 1023 }

/-- Round a rational to a binary format, to nearest-even, with gradual underflow and
overflow to infinity. -/
def roundFmt (f : Fmt) (q : ℚ) : Flt :=
  if q = 0 then .fin 0
  else
    let e := max (ilog2 q) f.emin
    let ulp : ℚ := (2 : ℚ) ^ (e - ((f.prec : Int) - 1))
    let r : ℚ := (roundEven (q / ulp) : ℚ) * ulp
    if (2 : ℚ) ^ (f.emax + 1) ≤ |r| then .inf (decide (q < 0)) else .fin r

/-- Conversion of a scalar to the scalar type of byte width `w`: `double` for 8 and `float`
for 4 round to the format; any other width is an integer type and the value is truncated
toward zero (a value with no integer part is kept as it is). -/
def roundTo (w : Nat) : Flt → Flt
  | .fin q =>
      if w = 8 then roundFmt binary64 q
      else if w = 4 then roundFmt binary32 q
      else .fin (if 0 ≤ q then (⌊q⌋ : ℚ) else (⌈q⌉ : ℚ))
  | .inf s => .inf s
  | .nan => .nan

/-- Conversion of an `int` index to the `unsigned int` parameter of `Texture::fetch`. -/
def toUInt (z : Int) : Nat := (z % 2 ^ 32).toNat

/-! ## Vector types -/

/-- A CUDA vector type as texture.h observes it: the size of its member `x`, its number of
components (CUDA vector types are unpadded, so `sizeof(T)` is their product), and whether
`vecLength<T>()` has a specialisation for it. -/
structure VecType where
  scalarSize : Nat
  comps : Nat
  known : Bool
deriving DecidableEq

/-- Byte size `sizeof(T)`. -/
def VecType.sizeOf (T : VecType) : Nat := T.comps * T.scalarSize

/-- Modelled from the spec: `vecLength<T>()` of convert.h, the component count of a recognised
numeric vector shape and zero for any other type. -/
def vecLength (T : VecType) : Nat := if T.known then T.comps else 0

def short2 : VecType := { scalarSize := 2, comps := 2, known := true }
def short4 : VecType := { scalarSize := 2, comps := 4, known := true }
def float2 : VecType := { scalarSize := 4, comps := 2, known := true }
def float4 : VecType := { scalarSize := 4, comps := 4, known := true }
def double2 : VecType := { scalarSize := 8, comps := 2, known := true }
def double4 : VecType := { scalarSize := 8, comps := 4, known := true }

/-- Value of a vector type: its components in the order x, y, z, w. -/
abbrev Vec := List Flt

/-- Fatal errors raised through `errorQuda`. -/
inductive QudaError where
  | precisionMismatch
  | vecLengthMismatch
  | vecTypeNotSupported
  | texIdOutOfRange
  | unknownPrecision
deriving DecidableEq

/-- Values of `QudaPrecision` that `Precision()` reports. -/
inductive QudaPrecision where
  | QUDA_DOUBLE_PRECISION
  | QUDA_SINGLE_PRECISION
  | QUDA_HALF_PRECISION
deriving DecidableEq

/-- The validator `checkTypes<RegType, InterType, StoreType>()`. -/
def checkTypes (Reg Inter Store : VecType) : Except QudaError Unit :=
  let reg_size := Reg.scalarSize
  let inter_size := Inter.scalarSize
  let store_size := Store.scalarSize
  if reg_size ≠ inter_size ∧ store_size ≠ 2 ∧ inter_size ≠ 4 then
    .error .precisionMismatch
  else if vecLength Inter ≠ vecLength Store then
    .error .vecLengthMismatch
  else if vecLength Reg = 0 then .error .vecTypeNotSupported
  else if vecLength Inter = 0 then .error .vecTypeNotSupported
  else if vecLength Store = 0 then .error .vecTypeNotSupported
  else .ok ()

/-- The macro `REG_LENGTH`: the number of elements per virtual register. -/
def REG_LENGTH (Reg : VecType) : Nat := Reg.sizeOf / Reg.scalarSize

/-- The local constant `M` of `load` and `save`: `(N * sizeof(RegType)) / sizeof(InterType)`. -/
def M (N : Nat) (Reg Inter : VecType) : Nat := (N * Reg.sizeOf) / Inter.sizeOf

/-- The member `Precision()` of both accessors. -/
def Precision (Store : VecType) : Except QudaError QudaPrecision :=
  if Store.scalarSize = 8 then .ok .QUDA_DOUBLE_PRECISION
  else if Store.scalarSize = 4 then .ok .QUDA_SINGLE_PRECISION
  else if Store.scalarSize = 2 then .ok .QUDA_HALF_PRECISION
  else .error .unknownPrecision

/-- The part of `cudaColorSpinorField` that the accessors consult: the stored array `V()`,
its byte length, the scale array `Norm()` and the element count `Length()`. -/
structure Field where
  V : Int → Vec
  Bytes : Nat
  Norm : Int → Flt
  Length : Nat

/-! ## Legacy `Texture<OutputType, InputType, tex_id>` -/

/-- Static state of one instantiation of the legacy `Texture` class, i.e. of one cache
channel: the members `bound` and `count`, and the region the texture reference of the
channel is bound to by `cudaBindTexture` (none after `cudaUnbindTexture`). -/
structure Channel where
  bound : Bool
  count : Int
  region : Option Nat
deriving DecidableEq

/-- Initial values of the static members: `bound = false`, `count = 0`. -/
def Channel.init : Channel := { bound := false, count := 0, region := none }

/-- Per-object state of a `Texture`: the byte count that `DIRECT_ACCESS_BLAS` keeps beside
the pointer (the destructor reads neither). -/
structure Texture where
  bytes : Nat
deriving DecidableEq

/-- The member `bind`: defined by `DEF_BIND_UNBIND` for the channels 0 to 4 of the supported
type pairs (`inRange`), fatal otherwise. -/
def Texture.bind (inRange : Bool) (bytes : Nat) (c : Channel) : Except QudaError Channel :=
  if inRange then .ok { c with region := some bytes } else .error .texIdOutOfRange

/-- The member `unbind`. -/
def Texture.unbind (inRange : Bool) (c : Channel) : Except QudaError Channel :=
  if inRange then .ok { c with region := none } else .error .texIdOutOfRange

/-- The default constructor `Texture()`. -/
def Texture.mkDefault (c : Channel) : Texture × Channel :=
  ({ bytes := 0 }, { c with count := c.count + 1 })

/-- The constructor `Texture(const cudaColorSpinorField *x)`. -/
def Texture.mkField (inRange : Bool) (x : Field) (c : Channel) :
    Except QudaError (Texture × Channel) :=
  if x.Bytes ≠ 0 then
    match Texture.bind inRange x.Bytes c with
    | .error e => .error e
    | .ok c1 => .ok ({ bytes := x.Bytes }, { c1 with bound := true, count := c1.count + 1 })
  else .ok ({ bytes := x.Bytes }, { c with count := c.count + 1 })

/-- The copy constructor `Texture(const Texture &tex)`. -/
def Texture.mkCopy (tex : Texture) (c : Channel) : Texture × Channel :=
  ({ bytes := tex.bytes }, { c with count := c.count + 1 })

/-- The destructor: `if (bound && !--count) { unbind(); bound = false; }`.  The decrement is
the right operand of `&&`, so it is evaluated only when `bound` holds. -/
def Texture.destroy (inRange : Bool) (_t : Texture) (c : Channel) : Except QudaError Channel :=
  if c.bound then
    let c1 : Channel := { c with count := c.count - 1 }
    if c1.count = 0 then
      match Texture.unbind inRange c1 with
      | .error e => .error e
      | .ok c2 => .ok { c2 with bound := false }
    else .ok c1
  else .ok c

/-- One construction of a script: over the field, or as a copy of the k-th live view. -/
inductive Make where
  | field
  | copy (k : Nat)
deriving DecidableEq

/-- Run a construction script on an in-range channel, over the field `x`; the views made so
far are `vs`.  Fails when a copy names a view that does not exist. -/
def construct (x : Field) : List Make → List Texture → Channel → Option (List Texture × Channel)
  | [], vs, c => some (vs, c)
  | .field :: ms, vs, c =>
      match Texture.mkField true x c with
      | .error _ => none
      | .ok (t, c1) => construct x ms (vs ++ [t]) c1
  | .copy k :: ms, vs, c =>
      match vs[k]? with
      | none => none
      | some s => construct x ms (vs ++ [(Texture.mkCopy s c).1]) (Texture.mkCopy s c).2

/-- Destroy the views of a list, in the order of the list, on an in-range channel. -/
def destroyAll : List Texture → Channel → Except QudaError Channel
  | [], c => .ok c
  | t :: ts, c =>
      match Texture.destroy true t c with
      | .error e => .error e
      | .ok c1 => destroyAll ts c1

/-! ## Helpers of convert.h and of the platform -/

/-- Array store `a[k] = v`. -/
def write {α : Type} (a : Int → α) (k : Int) (v : α) : Int → α :=
  fun n => if n = k then v else a n

/-- The strided store loop `for (j = j0; ...; j++) a[i + j*stride] = vals[j - j0]`. -/
def storeLoop {α : Type} (i stride : Int) : Nat → List α → (Int → α) → Int → α
  | _, [], a => a
  | j, v :: vs, a => storeLoop i stride (j + 1) vs (write a (i + (j : Int) * stride) v)

/-- Modelled from the spec: `copyFloatN(dst, src)` of convert.h, the copy and widen/narrow
helper between same-layout types of different precision; every component is converted to
the scalar type of the destination. -/
def copyFloatN (Dst : VecType) (src : Vec) : Vec := src.map (roundTo Dst.scalarSize)

/-- Cut a component sequence into at most `n` complete vectors of `k` components. -/
def regroup (k : Nat) : Nat → List Flt → List Vec
  | 0, _ => []
  | n + 1, cs =>
      if 0 < k ∧ k ≤ cs.length then cs.take k :: regroup k n (cs.drop k) else []

/-- Modelled from the spec: `convert<OutputType, InputType>(x, y, N)` of convert.h, the
component-order and precision conversion between vector shapes: the components of `y`, in
order, fill the first `N` vectors of the output shape, each converted to the output scalar
type.  The result lists the output vectors that are written. -/
def convert (Out : VecType) (y : List Vec) (N : Nat) : List Vec :=
  (regroup Out.comps N y.flatten).map (copyFloatN Out)

/-- Modelled from the spec: `max_fabs(v)` of convert.h, the largest absolute component. -/
def max_fabs (v : Vec) : Flt :=
  match v.map fabsf with
  | [] => .nan
  | a :: as => as.foldl fmaxf a

/-- Modelled from the spec: the constant `MAX_SHORT`, the largest magnitude of the narrow
integer type. -/
def MAX_SHORT : Flt := .fin 32767

/-- CUDA `__fdividef(x, y)`: the single-precision quotient; for a divisor of magnitude above
2^126 the intrinsic delivers zero (NaN for an infinite dividend). -/
def fdividef (x y : Flt) : Flt :=
  match y with
  | .fin b =>
      if (2 : ℚ) ^ 126 < |b| then
        (match x with
         | .fin _ => .fin 0
         | _ => .nan)
      else roundTo 4 (Flt.div x y)
  | _ => roundTo 4 (Flt.div x y)

/-- The product `a * v` of a scalar and a vector of type `T`, component by component, each
product rounded to the scalar type of `T`. -/
def scaleVec (T : VecType) (a : Flt) (v : Vec) : Vec :=
  v.map (fun c => roundTo T.scalarSize (Flt.mul a c))

/-! ## `saveHalf` -/

/-- The value of `c[0]` after the two reduction loops of `saveHalf`.  The array is
`float c[M]`: `c[j] = max_fabs(x_i[j])` holds the largest absolute component converted to
`float`; then `c[0] = fmaxf(c[j], c[0])` for `j = 1 .. M-1`.  (For `M = 0` the source reads
outside `c`; the model then gives NaN.) -/
def saveHalf_c0 (x_i : List Vec) : Flt :=
  let c := x_i.map (fun v => roundTo 4 (max_fabs v))
  (c.drop 1).foldl (fun c0 cj => fmaxf cj c0) (c.headD .nan)

/-- The local `C = __fdividef(MAX_SHORT, c[0])` of `saveHalf`. -/
def saveHalf_C (x_i : List Vec) : Flt := fdividef MAX_SHORT (saveHalf_c0 x_i)

/-- The function `saveHalf<OutputType, InputType, M>(x_o, norm, x_i, i, stride)`; `x_i` has
exactly `M` elements, and `make_shortN` (of convert.h, narrowing to `OutputType`) is a
parameter.  Returns the arrays `x_o` and `norm` after the call. -/
def saveHalf (make_shortN : Vec → Vec) (In : VecType) (x_o : Int → Vec) (norm : Int → Flt)
    (x_i : List Vec) (i stride : Int) : (Int → Vec) × (Int → Flt) :=
  let norm1 := write norm i (saveHalf_c0 x_i)
  let C := saveHalf_C x_i
  (storeLoop i stride 0 (x_i.map (fun xj => make_shortN (scaleVec In C xj))) x_o, norm1)

/-! ## `SpinorTexture` -/

/-- State of a `SpinorTexture`: the view `spinor` (its `operator[]`, yielding an `InterType`
value per unsigned index), the scale array `norm` and `stride`. -/
structure SpinorTexture where
  spinor : Nat → Vec
  norm : Int → Flt
  stride : Int

/-- The constructor `SpinorTexture(const cudaColorSpinorField &x)`; `tex` is the view built
over `x`. -/
def SpinorTexture.new (Reg Inter Store : VecType) (N : Nat) (tex : Nat → Vec) (x : Field) :
    Except QudaError SpinorTexture :=
  match checkTypes Reg Inter Store with
  | .error e => .error e
  | .ok _ => .ok { spinor := tex, norm := x.Norm, stride := (x.Length / (N * REG_LENGTH Reg) : Nat) }

/-- The member `SpinorTexture::load(x, i)`; returns the register vectors written to `x`. -/
def SpinorTexture.load (Reg Inter Store : VecType) (N : Nat) (s : SpinorTexture) (i : Int) :
    List Vec :=
  if Inter.sizeOf = 2 * Store.sizeOf then
    let xN := s.norm i
    convert Reg ((List.range (M N Reg Inter)).map
      (fun (j : Nat) => scaleVec Inter xN (s.spinor (toUInt (i + (j : Int) * s.stride))))) N
  else
    convert Reg ((List.range (M N Reg Inter)).map
      (fun (j : Nat) => copyFloatN Inter (s.spinor (toUInt (i + (j : Int) * s.stride))))) N

/-! ## `Spinor` -/

/-- State of a `Spinor`: the stored array, the scale array and `stride`. -/
structure Spinor where
  spinor : Int → Vec
  norm : Int → Flt
  stride : Int

/-- The constructors `Spinor(cudaColorSpinorField &x)`. -/
def Spinor.new (Reg Inter Store : VecType) (N : Nat) (x : Field) : Except QudaError Spinor :=
  match checkTypes Reg Inter Store with
  | .error e => .error e
  | .ok _ => .ok { spinor := x.V, norm := x.Norm, stride := (x.Length / (N * REG_LENGTH Reg) : Nat) }

/-- The member `Spinor::load(x, i)`, the default load; returns the register vectors written
to `x`. -/
def Spinor.load (Reg Inter : VecType) (N : Nat) (s : Spinor) (i : Int) : List Vec :=
  convert Reg ((List.range (M N Reg Inter)).map
    (fun (j : Nat) => copyFloatN Inter (s.spinor (i + (j : Int) * s.stride)))) N

/-- The default `Spinor::save(x, i)`.  The local array `y[M]` starts indeterminate: an
element that `convert` does not fill has the value `junk`. -/
def Spinor.saveDefault (Reg Inter Store : VecType) (N : Nat) (junk : Vec) (s : Spinor)
    (x : List Vec) (i : Int) : Spinor :=
  let y := convert Inter x (M N Reg Inter)
  let vals := (List.range (M N Reg Inter)).map (fun (j : Nat) => copyFloatN Store (y.getD j junk))
  { s with spinor := storeLoop i s.stride 0 vals s.spinor }

/-- The result of `saveHalf` put back into the accessor. -/
def Spinor.withHalf (s : Spinor) (r : (Int → Vec) × (Int → Flt)) : Spinor :=
  { s with spinor := r.1, norm := r.2 }

/-- The member `Spinor::save(x, i)`: the four explicit specialisations call `saveHalf`, every
other instantiation runs the default store. -/
def Spinor.save (make_shortN : Vec → Vec) (Reg Inter Store : VecType) (N : Nat) (junk : Vec)
    (s : Spinor) (x : List Vec) (i : Int) : Spinor :=
  if (Reg, Inter, Store, N) = (float2, float2, short2, 3) then
    s.withHalf (saveHalf make_shortN float2 s.spinor s.norm x i s.stride)
  else if (Reg, Inter, Store, N) = (float4, float4, short4, 6) then
    s.withHalf (saveHalf make_shortN float4 s.spinor s.norm x i s.stride)
  else if (Reg, Inter, Store, N) = (double2, double2, short2, 3) then
    s.withHalf (saveHalf make_shortN double2 s.spinor s.norm x i s.stride)
  else if (Reg, Inter, Store, N) = (double2, double4, short4, 12) then
    s.withHalf (saveHalf make_shortN double4 s.spinor s.norm (convert double4 x 6) i s.stride)
  else Spinor.saveDefault Reg Inter Store N junk s x i

/-- The storage indices of site `i`: `i + j*stride` for `0 ≤ j < m`. -/
def siteIndices (i stride : Int) (m : Nat) : List Int :=
  (List.range m).map (fun (j : Nat) => i + (j : Int) * stride)

/-! ## Concrete data used to run the definitions -/

/-- A field of 16 bytes whose stored array holds the vector (1, 2) at every index and whose
scale array holds 2 at every index. -/
def sampleField : Field :=
  { V := fun _ => [.fin 1, .fin 2], Bytes := 16, Norm := fun _ => .fin 2, Length := 4 }

/-- An all-zero two-component sub-vector. -/
def zero2 : Vec := [.fin 0, .fin 0]

/-- A read-write accessor of stride 1 whose stored array holds (1, 2) at every index and whose
scale array holds 2 at every index. -/
def sampleSpinor : Spinor :=
  { spinor := fun _ => [.fin 1, .fin 2], norm := fun _ => .fin 2, stride := 1 }

/-- A read-only accessor of stride 1 whose view fetches (1, 2) at every index and whose scale
array holds 2 at every index. -/
def sampleTexture : SpinorTexture :=
  { spinor := fun _ => [.fin 1, .fin 2], norm := fun _ => .fin 2, stride := 1 }

/-- A read-write accessor of stride 4 over an empty stored array. -/
def blankSpinor : Spinor :=
  { spinor := fun _ => [], norm := fun _ => .fin 0, stride := 4 }

/-- The value 1 + 2^-30: a `double` that is not a `float`. -/
def tiny : ℚ := 1 + 1 / 2 ^ 30

/-- Two `float2` sub-vectors of one site: (1, -3) and (2, 0). -/
def sampleSite : List Vec := [[.fin 1, .fin (-3)], [.fin 2, .fin 0]]

/-- Three `double2` registers of one site: (1 + 2^-30, 0), (0, 0), (0, 0). -/
def tinySite : List Vec := [[.fin tiny, .fin 0], zero2, zero2]

/-! ## The validator -/

/-- The first test of `checkTypes` fires exactly when the register and intermediate scalar
widths differ, the stored width is not 2 and the intermediate width is not 4. -/
theorem checkTypes_precisionMismatch_iff (Reg Inter Store : VecType) :
    checkTypes Reg Inter Store = .error .precisionMismatch ↔
      (Reg.scalarSize ≠ Inter.scalarSize ∧ Store.scalarSize ≠ 2 ∧ Inter.scalarSize ≠ 4) := by
  unfold checkTypes
  by_cases h : Reg.scalarSize ≠ Inter.scalarSize ∧ Store.scalarSize ≠ 2 ∧ Inter.scalarSize ≠ 4
  · simp [h]
  · simp only [h, if_false, iff_false]
    split_ifs <;> simp

/-- C1 (code defect): `checkTypes` accepts the triple (double2, float2, float2), whose register
and intermediate scalar widths differ (8 and 4) while the stored width is 4, not 2; both
accessors are then constructed over it. -/
theorem checkTypes_accepts_double2_float2_float2 :
    double2.scalarSize ≠ float2.scalarSize ∧ float2.scalarSize ≠ 2 ∧
      checkTypes double2 float2 float2 = .ok () ∧
      (∀ (N : Nat) (x : Field), ∃ s, Spinor.new double2 float2 float2 N x = .ok s) ∧
      (∀ (N : Nat) (tex : Nat → Vec) (x : Field),
        ∃ s, SpinorTexture.new double2 float2 float2 N tex x = .ok s) := by
  refine ⟨by decide, by decide, rfl, ?_, ?_⟩
  · intro N x
    exact ⟨_, rfl⟩
  · intro N tex x
    exact ⟨_, rfl⟩

/-! ## The number of sub-vectors -/

/-- When the register and intermediate scalar widths agree (and are nonzero), `M` is the
component ratio `(N * REG_LENGTH) / intermediate component count`. -/
theorem M_eq_component_ratio (N : Nat) (Reg Inter : VecType)
    (hw : Reg.scalarSize = Inter.scalarSize) (hpos : 0 < Reg.scalarSize) :
    M N Reg Inter = (N * REG_LENGTH Reg) / Inter.comps := by
  unfold M REG_LENGTH VecType.sizeOf
  rw [← hw, Nat.mul_div_cancel _ hpos, ← Nat.mul_assoc, Nat.mul_div_mul_right _ _ hpos]

/-- C9 (code defect): for the accepted triple (double2, float4, short4) and `N = 12` the code
computes `M = 12` from the byte sizes, while `(N * register component count) / intermediate
component count` is 6. -/
theorem M_double2_float4_short4 :
    checkTypes double2 float4 short4 = .ok () ∧ M 12 double2 float4 = 12 ∧
      (12 * REG_LENGTH double2) / float4.comps = 6 := by
  refine ⟨rfl, by decide, by decide⟩

/-! ## Reference counting of the legacy `Texture` -/

theorem mkField_inRange (x : Field) (c : Channel) (hx : x.Bytes ≠ 0) :
    Texture.mkField true x c =
      .ok ({ bytes := x.Bytes },
        { bound := true, count := c.count + 1, region := some x.Bytes }) := by
  simp [Texture.mkField, Texture.bind, hx]

theorem construct_spec (x : Field) (hx : x.Bytes ≠ 0) :
    ∀ (ms : List Make) (vs : List Texture) (c : Channel) (vs1 : List Texture) (c1 : Channel),
      (vs ≠ [] → c.bound = true ∧ c.region = some x.Bytes) →
      construct x ms vs c = some (vs1, c1) →
      vs1.length = vs.length + ms.length ∧ c1.count = c.count + ms.length ∧
        (vs1 ≠ [] → c1.bound = true ∧ c1.region = some x.Bytes) := by
  intro ms
  induction ms with
  | nil =>
      intro vs c vs1 c1 hinv h
      simp only [construct, Option.some.injEq, Prod.mk.injEq] at h
      obtain ⟨rfl, rfl⟩ := h
      simpa using hinv
  | cons m ms ih =>
      intro vs c vs1 c1 hinv h
      cases m with
      | field =>
          simp only [construct, mkField_inRange x c hx] at h
          obtain ⟨h1, h2, h3⟩ := ih _ _ vs1 c1 (fun _ => ⟨rfl, rfl⟩) h
          rw [List.length_append, List.length_singleton] at h1
          rw [List.length_cons, Nat.cast_add, Nat.cast_one]
          dsimp only at h2
          exact ⟨by omega, by omega, h3⟩
      | copy k =>
          simp only [construct] at h
          cases hk : vs[k]? with
          | none => simp [hk] at h
          | some s0 =>
              simp only [hk] at h
              have hne : vs ≠ [] := by
                intro h0
                simp [h0] at hk
              obtain ⟨h1, h2, h3⟩ :=
                ih _ _ vs1 c1 (fun _ => by simpa [Texture.mkCopy] using hinv hne) h
              rw [List.length_append, List.length_singleton] at h1
              rw [List.length_cons, Nat.cast_add, Nat.cast_one]
              simp only [Texture.mkCopy] at h2
              exact ⟨by omega, by omega, h3⟩

theorem destroyAll_spec :
    ∀ (ds : List Texture) (c : Channel) (n : Nat) (b : Nat),
      c.bound = true → c.count = n → c.region = some b → ds.length ≤ n → 1 ≤ n →
      ∃ c1, destroyAll ds c = .ok c1 ∧ c1.count = n - ds.length ∧
        (c1.bound = false ↔ ds.length = n) ∧ (c1.region = none ↔ ds.length = n) := by
  intro ds
  induction ds with
  | nil =>
      intro c n b hb hc hr _ hn
      refine ⟨c, rfl, by simpa using hc, ?_, ?_⟩
      · simp only [hb, List.length_nil]
        constructor
        · intro h
          cases h
        · intro h
          omega
      · simp only [hr, List.length_nil]
        constructor
        · intro h
          cases h
        · intro h
          omega
  | cons d ds ih =>
      intro c n b hb hc hr hlen hn
      simp only [List.length_cons] at hlen
      by_cases h1 : n = 1
      · subst h1
        have hds : ds = [] := by
          cases ds with
          | nil => rfl
          | cons _ _ => simp at hlen
        subst hds
        refine ⟨{ bound := false, count := 0, region := none }, ?_, by simp, by simp, by simp⟩
        simp [destroyAll, Texture.destroy, Texture.unbind, hb, hc]
      · have hstep : Texture.destroy true d c = .ok { c with count := c.count - 1 } := by
          have : ¬ (c.count - 1 = 0) := by
            rw [hc]
            omega
          simp [Texture.destroy, hb, this]
        obtain ⟨c1, h1', h2, h3, h4⟩ :=
          ih { c with count := c.count - 1 } (n - 1) b hb
            (by simp only [hc]; omega) hr (by omega) (by omega)
        refine ⟨c1, ?_, ?_, ?_, ?_⟩
        · simp only [destroyAll, hstep]
          exact h1'
        · simp only [List.length_cons]
          rw [h2]
          omega
        · rw [h3]
          simp only [List.length_cons]
          omega
        · rw [h4]
          simp only [List.length_cons]
          omega

/-- C2: starting from a channel with no live views, after `N ≥ 1` views are constructed over
a field of nonzero byte length (from the field or by copy) and any `k` of them are destroyed,
in any order, the destructors succeed and the channel is unbound (flag cleared, texture
reference released) if and only if `k = N`. -/
theorem texture_unbound_iff_all_destroyed (x : Field) (hx : x.Bytes ≠ 0) (ms : List Make)
    (hN : ms ≠ []) (vs : List Texture) (c : Channel)
    (hc : construct x ms [] Channel.init = some (vs, c))
    (p : List Texture) (hp : p.Perm vs) (k : Nat) (hk : k ≤ vs.length) :
    vs.length = ms.length ∧
      ∃ c1, destroyAll (p.take k) c = .ok c1 ∧
        (c1.bound = false ↔ k = vs.length) ∧ (c1.region = none ↔ k = vs.length) := by
  have hspec := construct_spec x hx ms [] Channel.init vs c (fun h => absurd rfl h) hc
  simp only [List.length_nil, Nat.zero_add, Channel.init, Int.zero_add] at hspec
  obtain ⟨hlen, hcount, hinv⟩ := hspec
  have hms : 1 ≤ ms.length := by
    cases ms with
    | nil => exact absurd rfl hN
    | cons _ _ => simp
  have hvs : vs ≠ [] := by
    intro h0
    rw [h0] at hlen
    simp at hlen
    omega
  obtain ⟨hb, hr⟩ := hinv hvs
  have hplen : (p.take k).length = k := by
    rw [List.length_take, hp.length_eq]
    omega
  obtain ⟨c1, h1, _, h3, h4⟩ :=
    destroyAll_spec (p.take k) c vs.length x.Bytes hb (by rw [hcount, hlen]) hr
      (by omega) (by omega)
  rw [hplen] at h3 h4
  exact ⟨hlen, c1, h1, h3, h4⟩

/-- Witness of C2: three views (field, copy of the first, field), two of them destroyed. -/
theorem texture_unbound_iff_all_destroyed_witness :
    sampleField.Bytes ≠ 0 ∧
      ([Make.field, Make.copy 0, Make.field] : List Make).length = 3 ∧
      ∃ c1, destroyAll (([⟨16⟩, ⟨16⟩, ⟨16⟩] : List Texture).take 2)
          { bound := true, count := 3, region := some 16 } = .ok c1 ∧
        (c1.bound = false ↔ 2 = ([⟨16⟩, ⟨16⟩, ⟨16⟩] : List Texture).length) ∧
        (c1.region = none ↔ 2 = ([⟨16⟩, ⟨16⟩, ⟨16⟩] : List Texture).length) :=
  ⟨by decide, rfl,
    (texture_unbound_iff_all_destroyed sampleField (by decide)
      [Make.field, Make.copy 0, Make.field] (by decide) [⟨16⟩, ⟨16⟩, ⟨16⟩]
      { bound := true, count := 3, region := some 16 } rfl [⟨16⟩, ⟨16⟩, ⟨16⟩]
      (List.Perm.refl _) 2 (by decide)).2⟩

/-- C3 (code defect): a default-constructed view raises `count` to 1 and its destructor leaves
`count` at 1, because `--count` is evaluated only when `bound` holds; a view then constructed
over a field and destroyed leaves the channel bound with `count = 1` and no live view. -/
theorem destroy_unbound_keeps_count :
    (Texture.mkDefault Channel.init).2 = { bound := false, count := 1, region := none } ∧
      Texture.destroy true (Texture.mkDefault Channel.init).1 (Texture.mkDefault Channel.init).2
        = .ok { bound := false, count := 1, region := none } ∧
      Texture.mkField true sampleField { bound := false, count := 1, region := none }
        = .ok (⟨16⟩, { bound := true, count := 2, region := some 16 }) ∧
      Texture.destroy true ⟨16⟩ { bound := true, count := 2, region := some 16 }
        = .ok { bound := true, count := 1, region := some 16 } := by
  refine ⟨rfl, rfl, rfl, rfl⟩

/-- In a bound channel the destructor lowers `count` by one, and unbinds exactly when the
new count is zero. -/
theorem destroy_bound (t : Texture) (c : Channel) (hb : c.bound = true) :
    Texture.destroy true t c =
      .ok (if c.count - 1 = 0 then { bound := false, count := c.count - 1, region := none }
           else { c with count := c.count - 1 }) := by
  unfold Texture.destroy Texture.unbind
  by_cases h : c.count - 1 = 0 <;> simp [hb, h]

/-! ## The order of `fmaxf` -/

theorem fle_refl (a : Flt) : Flt.le a a := by
  cases a with
  | fin q => simp [Flt.le, Flt.ble]
  | inf s => cases s <;> simp [Flt.le, Flt.ble]
  | nan => simp [Flt.le, Flt.ble]

theorem fle_trans {a b c : Flt} (hab : Flt.le a b) (hbc : Flt.le b c) : Flt.le a c := by
  unfold Flt.le at *
  cases a with
  | nan => simp [Flt.ble]
  | fin x =>
      cases b with
      | nan => simp [Flt.ble] at hab
      | fin y =>
          cases c with
          | nan => simp [Flt.ble] at hbc
          | fin z =>
              simp only [Flt.ble, decide_eq_true_eq] at *
              exact le_trans hab hbc
          | inf u => cases u <;> simp_all [Flt.ble]
      | inf t =>
          cases t <;> cases c with
          | nan => simp_all [Flt.ble]
          | fin z => simp_all [Flt.ble]
          | inf u => cases u <;> simp_all [Flt.ble]
  | inf s =>
      cases b with
      | nan => cases s <;> simp [Flt.ble] at hab
      | fin y =>
          cases c with
          | nan => simp [Flt.ble] at hbc
          | fin z => cases s <;> simp_all [Flt.ble]
          | inf u => cases s <;> cases u <;> simp_all [Flt.ble]
      | inf t =>
          cases c with
          | nan => cases t <;> simp [Flt.ble] at hbc
          | fin z => cases s <;> cases t <;> simp_all [Flt.ble]
          | inf u => cases s <;> cases t <;> cases u <;> simp_all [Flt.ble]

theorem fle_fmaxf_left (a b : Flt) : Flt.le a (fmaxf a b) := by
  unfold Flt.le
  cases a with
  | nan => simp [Flt.ble]
  | fin x =>
      cases b with
      | nan => simp [fmaxf, Flt.ble]
      | fin y =>
          by_cases h : x ≤ y <;> simp [fmaxf, Flt.ble, h]
      | inf t => cases t <;> simp [fmaxf, Flt.ble]
  | inf s =>
      cases b with
      | nan => cases s <;> simp [fmaxf, Flt.ble]
      | fin y => cases s <;> simp [fmaxf, Flt.ble]
      | inf t => cases s <;> cases t <;> simp [fmaxf, Flt.ble]

theorem fle_fmaxf_right (a b : Flt) : Flt.le b (fmaxf a b) := by
  unfold Flt.le
  cases a with
  | nan =>
      cases b with
      | nan => simp [fmaxf, Flt.ble]
      | fin y => simp [fmaxf, Flt.ble]
      | inf t => cases t <;> simp [fmaxf, Flt.ble]
  | fin x =>
      cases b with
      | nan => simp [fmaxf, Flt.ble]
      | fin y =>
          by_cases h : x ≤ y
          · simp [fmaxf, Flt.ble, h]
          · simp [fmaxf, Flt.ble, h, le_of_lt (not_le.mp h)]
      | inf t => cases t <;> simp [fmaxf, Flt.ble]
  | inf s =>
      cases b with
      | nan => cases s <;> simp [fmaxf, Flt.ble]
      | fin y => cases s <;> simp [fmaxf, Flt.ble]
      | inf t => cases s <;> cases t <;> simp [fmaxf, Flt.ble]

theorem fmaxf_eq_or (a b : Flt) : fmaxf a b = a ∨ fmaxf a b = b := by
  cases a with
  | nan => simp [fmaxf]
  | fin x =>
      cases b with
      | nan => simp [fmaxf]
      | fin y => by_cases h : x ≤ y <;> simp [fmaxf, h]
      | inf t => cases t <;> simp [fmaxf]
  | inf s =>
      cases b with
      | nan => simp [fmaxf]
      | fin y => cases s <;> simp [fmaxf]
      | inf t => cases s <;> cases t <;> simp [fmaxf]

/-- A left fold with a binary maximum yields an upper bound of the seed and of every element,
and is one of them. -/
theorem foldl_max_spec (f : Flt → Flt → Flt) (hl : ∀ a b, Flt.le a (f a b))
    (hr : ∀ a b, Flt.le b (f a b)) (hc : ∀ a b, f a b = a ∨ f a b = b) :
    ∀ (l : List Flt) (a : Flt),
      Flt.le a (l.foldl f a) ∧ (∀ c ∈ l, Flt.le c (l.foldl f a)) ∧
        (l.foldl f a = a ∨ l.foldl f a ∈ l) := by
  intro l
  induction l with
  | nil =>
      intro a
      exact ⟨fle_refl a, by simp, Or.inl rfl⟩
  | cons b l ih =>
      intro a
      obtain ⟨h1, h2, h3⟩ := ih (f a b)
      simp only [List.foldl_cons, List.mem_cons]
      refine ⟨fle_trans (hl a b) h1, ?_, ?_⟩
      · intro c hcm
        rcases hcm with rfl | hcm
        · exact fle_trans (hr a c) h1
        · exact h2 c hcm
      · rcases h3 with h3 | h3
        · rcases hc a b with h4 | h4
          · left
            rw [h3, h4]
          · right
            left
            rw [h3, h4]
        · right
          right
          exact h3

/-- The model of `max_fabs` returns the largest absolute component of a nonempty vector. -/
theorem max_fabs_spec (v : Vec) (hv : v ≠ []) :
    (∀ c ∈ v, Flt.le (fabsf c) (max_fabs v)) ∧ ∃ c ∈ v, max_fabs v = fabsf c := by
  cases v with
  | nil => exact absurd rfl hv
  | cons a as =>
      obtain ⟨h1, h2, h3⟩ :=
        foldl_max_spec fmaxf fle_fmaxf_left fle_fmaxf_right fmaxf_eq_or (as.map fabsf) (fabsf a)
      have hm : max_fabs (a :: as) = (as.map fabsf).foldl fmaxf (fabsf a) := rfl
      rw [hm]
      constructor
      · intro c hcm
        rcases List.mem_cons.mp hcm with rfl | hcm
        · exact h1
        · exact h2 _ (List.mem_map_of_mem _ hcm)
      · rcases h3 with h3 | h3
        · exact ⟨a, List.mem_cons_self _ _, h3⟩
        · obtain ⟨c, hcm, hce⟩ := List.mem_map.mp h3
          exact ⟨c, List.mem_cons_of_mem _ hcm, hce.symm⟩

/-! ## The strided layout -/

theorem mem_siteIndices (i stride : Int) (m : Nat) (k : Int) :
    k ∈ siteIndices i stride m ↔ ∃ j : Nat, j < m ∧ k = i + (j : Int) * stride := by
  unfold siteIndices
  rw [List.mem_map]
  constructor
  · rintro ⟨j, hj, rfl⟩
    exact ⟨j, List.mem_range.mp hj, rfl⟩
  · rintro ⟨j, hj, rfl⟩
    exact ⟨j, List.mem_range.mpr hj, rfl⟩

/-- The store loop changes no element outside the indices it runs over. -/
theorem storeLoop_frame {α : Type} (i stride : Int) :
    ∀ (vals : List α) (j0 : Nat) (a : Int → α) (k : Int),
      (∀ t : Nat, t < vals.length → k ≠ i + ((j0 + t : Nat) : Int) * stride) →
      storeLoop i stride j0 vals a k = a k := by
  intro vals
  induction vals with
  | nil =>
      intro j0 a k _
      rfl
  | cons v vs ih =>
      intro j0 a k h
      simp only [storeLoop]
      rw [ih (j0 + 1) _ k]
      · have h0 := h 0 (by simp)
        simp only [Nat.add_zero] at h0
        simp [write, h0]
      · intro t ht
        have := h (t + 1) (by simpa using ht)
        rwa [show j0 + (t + 1) = j0 + 1 + t by omega] at this

/-- With a nonzero stride the store loop leaves its `t`-th value at index
`i + (j0 + t) * stride`. -/
theorem storeLoop_get {α : Type} (i stride : Int) (hs : stride ≠ 0) :
    ∀ (vals : List α) (j0 : Nat) (a : Int → α) (t : Nat) (v : α),
      vals[t]? = some v →
      storeLoop i stride j0 vals a (i + ((j0 + t : Nat) : Int) * stride) = v := by
  intro vals
  induction vals with
  | nil =>
      intro j0 a t v h
      simp at h
  | cons w ws ih =>
      intro j0 a t v h
      simp only [storeLoop]
      cases t with
      | zero =>
          simp only [List.getElem?_cons_zero, Option.some.injEq] at h
          subst h
          rw [storeLoop_frame]
          · simp [write]
          · intro t _ heq
            have h1 : ((j0 + 0 : Nat) : Int) * stride = ((j0 + 1 + t : Nat) : Int) * stride := by
              linarith
            have h2 := mul_right_cancel₀ hs h1
            omega
      | succ t =>
          simp only [List.getElem?_cons_succ] at h
          have := ih (j0 + 1) (write a (i + (j0 : Int) * stride) w) t v h
          rwa [show j0 + 1 + t = j0 + (t + 1) by omega] at this

/-- Two distinct sites below the stride never share a storage index. -/
theorem site_index_ne (stride i i' : Int) (hi : 0 ≤ i ∧ i < stride)
    (hi' : 0 ≤ i' ∧ i' < stride) (hne : i ≠ i') (j j' : Nat) :
    i + (j : Int) * stride ≠ i' + (j' : Int) * stride := by
  intro h
  have h1 : (i + (j : Int) * stride) % stride = i := by
    rw [Int.add_mul_emod_self]
    exact Int.emod_eq_of_lt hi.1 hi.2
  have h2 : (i' + (j' : Int) * stride) % stride = i' := by
    rw [Int.add_mul_emod_self]
    exact Int.emod_eq_of_lt hi'.1 hi'.2
  rw [h] at h1
  exact hne (h1.symm.trans h2)

theorem regroup_length_le (k : Nat) : ∀ (n : Nat) (cs : List Flt), (regroup k n cs).length ≤ n := by
  intro n
  induction n with
  | zero =>
      intro cs
      simp [regroup]
  | succ n ih =>
      intro cs
      unfold regroup
      split_ifs
      · simp only [List.length_cons]
        exact Nat.succ_le_succ (ih _)
      · simp

theorem convert_length_le (Out : VecType) (y : List Vec) (N : Nat) :
    (convert Out y N).length ≤ N := by
  unfold convert
  rw [List.length_map]
  exact regroup_length_le _ _ _

/-- The array `x_o` after `saveHalf`: unchanged off the site's indices. -/
theorem saveHalf_frame (make_shortN : Vec → Vec) (In : VecType) (x_o : Int → Vec)
    (norm : Int → Flt) (x_i : List Vec) (i stride : Int) (m : Nat) (hm : x_i.length ≤ m)
    (k : Int) (hk : k ∉ siteIndices i stride m) :
    (saveHalf make_shortN In x_o norm x_i i stride).1 k = x_o k := by
  unfold saveHalf
  apply storeLoop_frame
  intro t ht heq
  apply hk
  rw [mem_siteIndices]
  rw [List.length_map] at ht
  exact ⟨t, by omega, by simpa using heq⟩

/-- The scale array after `saveHalf`: unchanged off the site. -/
theorem saveHalf_norm_frame (make_shortN : Vec → Vec) (In : VecType) (x_o : Int → Vec)
    (norm : Int → Flt) (x_i : List Vec) (i stride : Int) (k : Int) (hk : k ≠ i) :
    (saveHalf make_shortN In x_o norm x_i i stride).2 k = norm k := by
  simp [saveHalf, write, hk]

/-- The default store changes no stored element off the site's indices, and no scale. -/
theorem saveDefault_frame (Reg Inter Store : VecType) (N : Nat) (junk : Vec) (s : Spinor)
    (x : List Vec) (i : Int) :
    (∀ k, k ∉ siteIndices i s.stride (M N Reg Inter) →
        (Spinor.saveDefault Reg Inter Store N junk s x i).spinor k = s.spinor k) ∧
      (Spinor.saveDefault Reg Inter Store N junk s x i).norm = s.norm ∧
      (Spinor.saveDefault Reg Inter Store N junk s x i).stride = s.stride := by
  refine ⟨?_, rfl, rfl⟩
  intro k hk
  unfold Spinor.saveDefault
  apply storeLoop_frame
  intro t ht heq
  apply hk
  rw [mem_siteIndices]
  rw [List.length_map, List.length_range] at ht
  exact ⟨t, ht, by simpa using heq⟩

/-- The member `save` changes no stored element off the site's indices and no scale entry of
another site. -/
theorem save_frame (make_shortN : Vec → Vec) (Reg Inter Store : VecType) (N : Nat)
    (junk : Vec) (s : Spinor) (x : List Vec) (hx : x.length = N) (i : Int) :
    (∀ k, k ∉ siteIndices i s.stride (M N Reg Inter) →
        (Spinor.save make_shortN Reg Inter Store N junk s x i).spinor k = s.spinor k) ∧
      (∀ k, k ≠ i → (Spinor.save make_shortN Reg Inter Store N junk s x i).norm k = s.norm k) := by
  unfold Spinor.save
  split_ifs with h1 h2 h3 h4
  · simp only [Prod.mk.injEq] at h1
    obtain ⟨rfl, rfl, rfl, rfl⟩ := h1
    exact ⟨fun k hk => saveHalf_frame make_shortN float2 s.spinor s.norm x i s.stride _
        (by rw [hx]; decide) k hk,
      fun k hk => saveHalf_norm_frame make_shortN float2 s.spinor s.norm x i s.stride k hk⟩
  · simp only [Prod.mk.injEq] at h2
    obtain ⟨rfl, rfl, rfl, rfl⟩ := h2
    exact ⟨fun k hk => saveHalf_frame make_shortN float4 s.spinor s.norm x i s.stride _
        (by rw [hx]; decide) k hk,
      fun k hk => saveHalf_norm_frame make_shortN float4 s.spinor s.norm x i s.stride k hk⟩
  · simp only [Prod.mk.injEq] at h3
    obtain ⟨rfl, rfl, rfl, rfl⟩ := h3
    exact ⟨fun k hk => saveHalf_frame make_shortN double2 s.spinor s.norm x i s.stride _
        (by rw [hx]; decide) k hk,
      fun k hk => saveHalf_norm_frame make_shortN double2 s.spinor s.norm x i s.stride k hk⟩
  · simp only [Prod.mk.injEq] at h4
    obtain ⟨rfl, rfl, rfl, rfl⟩ := h4
    exact ⟨fun k hk => saveHalf_frame make_shortN double4 s.spinor s.norm
        (convert double4 x 6) i s.stride _
        (le_trans (convert_length_le _ _ _) (by decide)) k hk,
      fun k hk => saveHalf_norm_frame make_shortN double4 s.spinor s.norm
        (convert double4 x 6) i s.stride k hk⟩
  · obtain ⟨hf, hn, _⟩ := saveDefault_frame Reg Inter Store N junk s x i
    exact ⟨hf, fun k _ => by rw [hn]⟩

/-! ## Rounding -/

theorem roundEven_intCast (n : Int) : roundEven (n : ℚ) = n := by
  unfold roundEven
  simp

theorem ilog2_eq (q : ℚ) (e : Int) (h1 : (2 : ℚ) ^ e ≤ |q|) (h2 : |q| < (2 : ℚ) ^ (e + 1)) :
    ilog2 q = e := by
  unfold ilog2
  have hpos : 0 < |q| := lt_of_lt_of_le (by positivity) h1
  have ha : e ≤ Int.log 2 |q| := (Int.zpow_le_iff_le_log (by norm_num) hpos).mp (by exact_mod_cast h1)
  have hb : Int.log 2 |q| < e + 1 := (Int.lt_zpow_iff_log_lt (by norm_num) hpos).mp (by exact_mod_cast h2)
  omega

/-- Evaluation of `roundFmt` from the binade of the argument. -/
theorem roundFmt_of_scaled (f : Fmt) (q : ℚ) (e n : Int) (h1 : (2 : ℚ) ^ e ≤ |q|)
    (h2 : |q| < (2 : ℚ) ^ (e + 1)) (hmin : f.emin ≤ e)
    (hn : roundEven (q / (2 : ℚ) ^ (e - ((f.prec : Int) - 1))) = n)
    (hlt : |(n : ℚ) * (2 : ℚ) ^ (e - ((f.prec : Int) - 1))| < (2 : ℚ) ^ (f.emax + 1)) :
    roundFmt f q = .fin ((n : ℚ) * (2 : ℚ) ^ (e - ((f.prec : Int) - 1))) := by
  have hq : q ≠ 0 := by
    intro h0
    rw [h0, abs_zero] at h1
    exact absurd h1 (not_le.mpr (by positivity))
  unfold roundFmt
  simp only [hq, if_false, ilog2_eq q e h1 h2, max_eq_left hmin, hn, not_le.mpr hlt]

/-- An integer that fits the significand is representable. -/
theorem roundFmt_intCast (f : Fmt) (n : Int) (hn : |(n : ℚ)| < (2 : ℚ) ^ f.prec)
    (hmin : f.emin ≤ 0) (hmax : (f.prec : Int) ≤ f.emax + 1) :
    roundFmt f (n : ℚ) = .fin (n : ℚ) := by
  by_cases h0 : n = 0
  · simp [roundFmt, h0]
  have hpos : 0 < |(n : ℚ)| := abs_pos.mpr (by exact_mod_cast h0)
  have hone : (1 : ℚ) ≤ |(n : ℚ)| := by
    have : (1 : Int) ≤ |n| := Int.one_le_abs h0
    exact_mod_cast this
  have he0 : 0 ≤ Int.log 2 |(n : ℚ)| :=
    (Int.zpow_le_iff_le_log (by norm_num) hpos).mp (by simpa using hone)
  have hep : Int.log 2 |(n : ℚ)| < f.prec :=
    (Int.lt_zpow_iff_log_lt (by norm_num) hpos).mp (by simpa using hn)
  obtain ⟨k, hk⟩ := Int.eq_ofNat_of_zero_le (show 0 ≤ (f.prec : Int) - 1 - Int.log 2 |(n : ℚ)| by omega)
  have hexp : Int.log 2 |(n : ℚ)| - ((f.prec : Int) - 1) = -(k : Int) := by omega
  have h := roundFmt_of_scaled f (n : ℚ) (Int.log 2 |(n : ℚ)|) (n * 2 ^ k)
    (by simpa using Int.zpow_log_le_self (b := 2) (by norm_num) hpos)
    (by simpa using Int.lt_zpow_succ_log_self (b := 2) (by norm_num) |(n : ℚ)|)
    (by omega)
    (by
      rw [hexp, zpow_neg, zpow_natCast, div_inv_eq_mul]
      have : (n : ℚ) * 2 ^ k = ((n * 2 ^ k : Int) : ℚ) := by push_cast; ring
      rw [this, roundEven_intCast])
    (by
      rw [hexp, zpow_neg, zpow_natCast]
      push_cast
      rw [mul_assoc, mul_inv_cancel₀ (by positivity), mul_one]
      refine lt_of_lt_of_le hn ?_
      rw [← zpow_natCast]
      exact zpow_le_zpow_right₀ (by norm_num) hmax)
  rw [h, hexp, zpow_neg, zpow_natCast]
  push_cast
  rw [mul_assoc, mul_inv_cancel₀ (by positivity), mul_one]

theorem roundTo_four (q : ℚ) : roundTo 4 (.fin q) = roundFmt binary32 q := by
  simp [roundTo]

theorem roundTo_eight (q : ℚ) : roundTo 8 (.fin q) = roundFmt binary64 q := by
  simp [roundTo]

/-- Narrowing 1 + 2^-30 to `float` gives 1. -/
theorem roundTo4_tiny : roundTo 4 (.fin tiny) = .fin 1 := by
  unfold tiny
  have h := roundFmt_of_scaled binary32 (1 + 1 / 2 ^ 30) 0 (2 ^ 23)
    (by norm_num [abs_of_pos]) (by norm_num [abs_of_pos]) (by decide)
    (by
      unfold roundEven
      have hf : ⌊((1 + 1 / 2 ^ 30) / (2 : ℚ) ^ ((0 : Int) - (((binary32.prec : Nat) : Int) - 1)))⌋ = 2 ^ 23 := by
        rw [Int.floor_eq_iff]
        norm_num [binary32]
      rw [hf]
      norm_num [binary32])
    (by norm_num [binary32, abs_of_pos])
  rw [roundTo_four, h]
  norm_num [binary32]

/-- The value 1 + 2^-30 is a `double`. -/
theorem roundTo8_tiny : roundTo 8 (.fin tiny) = .fin tiny := by
  unfold tiny
  have h := roundFmt_of_scaled binary64 (1 + 1 / 2 ^ 30) 0 (2 ^ 52 + 2 ^ 22)
    (by norm_num [abs_of_pos]) (by norm_num [abs_of_pos]) (by decide)
    (by
      have : ((1 + 1 / 2 ^ 30) / (2 : ℚ) ^ ((0 : Int) - (((binary64.prec : Nat) : Int) - 1)))
          = ((2 ^ 52 + 2 ^ 22 : Int) : ℚ) := by
        norm_num [binary64]
      rw [this, roundEven_intCast])
    (by norm_num [binary64, abs_of_pos])
  rw [roundTo_eight, h]
  norm_num [binary64]

/-- Integers below 2^24 in magnitude are exact in `float` and in `double`. -/
theorem roundTo_small (w : Nat) (hw : w = 4 ∨ w = 8) (n : Int) (hn : |(n : ℚ)| < 2 ^ 24) :
    roundTo w (.fin (n : ℚ)) = .fin (n : ℚ) := by
  rcases hw with rfl | rfl
  · rw [roundTo_four]
    exact roundFmt_intCast binary32 n (by simpa [binary32] using hn) (by decide) (by decide)
  · rw [roundTo_eight]
    exact roundFmt_intCast binary64 n
      (lt_of_lt_of_le hn (by norm_num [binary64])) (by decide) (by decide)

/-- A value that survives the conversion to `float` survives the conversion to `double`. -/
theorem roundTo_eight_of_four (q : ℚ) (h : roundTo 4 (.fin q) = .fin q) :
    roundTo 8 (.fin q) = .fin q := by
  rw [roundTo_four] at h
  rw [roundTo_eight]
  by_cases h0 : q = 0
  · simp [roundFmt, h0]
  unfold roundFmt at h ⊢
  simp only [h0, if_false] at h ⊢
  split_ifs at h with hov
  simp only [Flt.fin.injEq] at h
  obtain ⟨k, hk⟩ := Int.eq_ofNat_of_zero_le
    (show 0 ≤ (max (ilog2 q) binary32.emin - ((binary32.prec : Int) - 1))
        - (max (ilog2 q) binary64.emin - ((binary64.prec : Int) - 1)) by
      have h1 : max (ilog2 q) binary64.emin ≤ max (ilog2 q) binary32.emin :=
        max_le_max (le_refl _) (by decide)
      have h2 : (binary32.prec : Int) = 24 := rfl
      have h3 : (binary64.prec : Int) = 53 := rfl
      omega)
  have hu : (2 : ℚ) ^ (max (ilog2 q) binary32.emin - ((binary32.prec : Int) - 1))
      = (2 : ℚ) ^ k * (2 : ℚ) ^ (max (ilog2 q) binary64.emin - ((binary64.prec : Int) - 1)) := by
    rw [← zpow_natCast, ← zpow_add₀ (by norm_num), ← hk]
    congr 1
    ring
  have hpos : (0 : ℚ) < (2 : ℚ) ^ (max (ilog2 q) binary64.emin - ((binary64.prec : Int) - 1)) := by
    positivity
  have hq : q / (2 : ℚ) ^ (max (ilog2 q) binary64.emin - ((binary64.prec : Int) - 1))
      = ((roundEven (q / (2 : ℚ) ^ (max (ilog2 q) binary32.emin - ((binary32.prec : Int) - 1)))
          * 2 ^ k : Int) : ℚ) := by
    rw [div_eq_iff (ne_of_gt hpos)]
    push_cast
    rw [mul_assoc, ← hu]
    exact h.symm
  rw [hq, roundEven_intCast, ← hq, div_mul_cancel₀ _ (ne_of_gt hpos)]
  rw [if_neg]
  rw [h] at hov
  refine fun hc => hov (le_trans ?_ hc)
  exact zpow_le_zpow_right₀ (by norm_num) (by decide)
theorem roundTo_one (w : Nat) (hw : w = 4 ∨ w = 8) : roundTo w (.fin 1) = .fin 1 := by
  have := roundTo_small w hw 1 (by norm_num)
  simpa using this

theorem roundTo_two (w : Nat) (hw : w = 4 ∨ w = 8) : roundTo w (.fin 2) = .fin 2 := by
  have := roundTo_small w hw 2 (by norm_num)
  simpa using this

theorem roundTo_three (w : Nat) (hw : w = 4 ∨ w = 8) : roundTo w (.fin 3) = .fin 3 := by
  have := roundTo_small w hw 3 (by norm_num)
  simpa using this

theorem roundTo_four_val (w : Nat) (hw : w = 4 ∨ w = 8) : roundTo w (.fin 4) = .fin 4 := by
  have := roundTo_small w hw 4 (by norm_num)
  simpa using this

theorem roundTo_zero (w : Nat) (hw : w = 4 ∨ w = 8) : roundTo w (.fin 0) = .fin 0 := by
  have := roundTo_small w hw 0 (by norm_num)
  simpa using this

theorem map_roundTo_id (w : Nat) (u : Vec) (h : ∀ c ∈ u, roundTo w c = c) :
    u.map (roundTo w) = u := by
  induction u with
  | nil => rfl
  | cons a as ih =>
      rw [List.map_cons, h a (List.mem_cons_self _ _),
        ih (fun c hc => h c (List.mem_cons_of_mem _ hc))]

/-! ## Regrouping -/

theorem regroup_flatten (k : Nat) (hk : 0 < k) :
    ∀ (v : List Vec), (∀ u ∈ v, u.length = k) → regroup k v.length v.flatten = v := by
  intro v
  induction v with
  | nil =>
      intro _
      rfl
  | cons u us ih =>
      intro h
      have hu : u.length = k := h u (List.mem_cons_self _ _)
      have hlen : k ≤ (u ++ us.flatten).length := by
        rw [List.length_append]
        omega
      simp only [List.length_cons, List.flatten_cons, regroup, hk, hlen, and_self, if_true]
      rw [← hu, List.take_left, List.drop_left, hu, ih (fun w hw => h w (List.mem_cons_of_mem _ hw))]

theorem flatten_regroup (k : Nat) (hk : 0 < k) :
    ∀ (n : Nat) (cs : List Flt), n * k ≤ cs.length →
      (regroup k n cs).flatten = cs.take (n * k) ∧ (regroup k n cs).length = n := by
  intro n
  induction n with
  | zero =>
      intro cs _
      simp [regroup]
  | succ n ih =>
      intro cs h
      have h1 : k ≤ cs.length := by
        have : k ≤ (n + 1) * k := Nat.le_mul_of_pos_left k (Nat.succ_pos n)
        omega
      have h2 : n * k ≤ (cs.drop k).length := by
        rw [List.length_drop, Nat.succ_mul] at *
        omega
      obtain ⟨ih1, ih2⟩ := ih (cs.drop k) h2
      simp only [regroup, hk, h1, and_self, if_true, List.flatten_cons, List.length_cons, ih1, ih2,
        and_true]
      rw [Nat.succ_mul, Nat.add_comm (n * k) k, List.take_add]

theorem flatten_length_of_uniform (k : Nat) :
    ∀ (v : List Vec), (∀ u ∈ v, u.length = k) → v.flatten.length = v.length * k := by
  intro v
  induction v with
  | nil =>
      intro _
      simp
  | cons u us ih =>
      intro h
      rw [List.flatten_cons, List.length_append, h u (List.mem_cons_self _ _),
        ih (fun w hw => h w (List.mem_cons_of_mem _ hw)), List.length_cons, Nat.succ_mul]
      omega

/-- Regrouping the components of `n` vectors of `a` components into vectors of `b` components
and back returns the vectors, when `m * b = n * a`. -/
theorem regroup_roundtrip (a b m : Nat) (ha : 0 < a) (hb : 0 < b) (v : List Vec)
    (hv : ∀ u ∈ v, u.length = a) (hm : m * b = v.length * a) :
    (regroup b m v.flatten).length = m ∧ (regroup b m v.flatten).flatten = v.flatten ∧
      regroup a v.length (regroup b m v.flatten).flatten = v := by
  have hlen := flatten_length_of_uniform a v hv
  obtain ⟨h1, h2⟩ := flatten_regroup b hb m v.flatten (by rw [hlen, hm])
  have h3 : (regroup b m v.flatten).flatten = v.flatten := by
    rw [h1, hm, ← hlen, List.take_length]
  exact ⟨h2, h3, by rw [h3, regroup_flatten a ha v hv]⟩

/-! ## The scale written by `saveHalf` -/

/-- A rational that survives the conversion to `float` has a magnitude that survives it. -/
theorem roundTo_four_abs (q : ℚ) (h : roundTo 4 (.fin q) = .fin q) :
    roundTo 4 (.fin |q|) = .fin |q| := by
  rw [roundTo_four] at h ⊢
  by_cases h0 : q = 0
  · simp [roundFmt, h0]
  have h0' : |q| ≠ 0 := abs_ne_zero.mpr h0
  unfold roundFmt at h ⊢
  simp only [h0, h0', if_false] at h ⊢
  have hl : ilog2 |q| = ilog2 q := by
    unfold ilog2
    rw [abs_abs]
  rw [hl]
  split_ifs at h with hov
  simp only [Flt.fin.injEq] at h
  have hpos : (0 : ℚ) < (2 : ℚ) ^ (max (ilog2 q) binary32.emin - ((binary32.prec : Int) - 1)) := by
    positivity
  have hq : |q| / (2 : ℚ) ^ (max (ilog2 q) binary32.emin - ((binary32.prec : Int) - 1))
      = ((|roundEven (q / (2 : ℚ) ^ (max (ilog2 q) binary32.emin
          - ((binary32.prec : Int) - 1)))| : Int) : ℚ) := by
    rw [div_eq_iff (ne_of_gt hpos)]
    push_cast
    rw [← abs_of_pos hpos, ← abs_mul, abs_of_pos hpos, h]
  rw [hq, roundEven_intCast, ← hq, div_mul_cancel₀ _ (ne_of_gt hpos), abs_abs]
  rw [h] at hov
  rw [if_neg hov]

/-- A scalar that is a `float` has an absolute value that is a `float`. -/
theorem roundTo_four_fabsf (c : Flt) (h : roundTo 4 c = c) : roundTo 4 (fabsf c) = fabsf c := by
  cases c with
  | fin q => exact roundTo_four_abs q h
  | inf s => rfl
  | nan => rfl

/-- The value `c[0]` of `saveHalf` bounds every `c[j]`, the largest absolute component of
`x_i[j]` converted to `float`, and is one of them. -/
theorem saveHalf_c0_spec (x_i : List Vec) (hM : x_i ≠ []) :
    (∀ v ∈ x_i, Flt.le (roundTo 4 (max_fabs v)) (saveHalf_c0 x_i)) ∧
      ∃ v ∈ x_i, saveHalf_c0 x_i = roundTo 4 (max_fabs v) := by
  cases x_i with
  | nil => exact absurd rfl hM
  | cons a as =>
      obtain ⟨h1, h2, h3⟩ :=
        foldl_max_spec (fun c0 cj => fmaxf cj c0) (fun a b => fle_fmaxf_right b a)
          (fun a b => fle_fmaxf_left b a) (fun a b => (fmaxf_eq_or b a).symm)
          (as.map (fun v => roundTo 4 (max_fabs v))) (roundTo 4 (max_fabs a))
      have hm : saveHalf_c0 (a :: as)
          = (as.map (fun v => roundTo 4 (max_fabs v))).foldl (fun c0 cj => fmaxf cj c0)
              (roundTo 4 (max_fabs a)) := rfl
      rw [hm]
      constructor
      · intro v hvm
        rcases List.mem_cons.mp hvm with rfl | hvm
        · exact h1
        · exact h2 _ (List.mem_map_of_mem _ hvm)
      · rcases h3 with h3 | h3
        · exact ⟨a, List.mem_cons_self _ _, h3⟩
        · obtain ⟨v, hvm, hve⟩ := List.mem_map.mp h3
          exact ⟨v, List.mem_cons_of_mem _ hvm, hve.symm⟩

/-- C4 (as stated, refuted): `Spinor<double2, double2, short2, 3>::save`, which calls
`saveHalf<short2, double2, 3>`, on the registers (1 + 2^-30, 0), (0, 0), (0, 0), whose
components are doubles, writes `norm[0] = 1`: the largest absolute component 1 + 2^-30
converted to `float`.  The value written is below that component and is the absolute value
of no component. -/
theorem saveHalf_norm_rounds_to_float :
    checkTypes double2 double2 short2 = .ok () ∧
      (∀ v ∈ tinySite, ∀ c ∈ v, roundTo double2.scalarSize c = c) ∧
      max_fabs [.fin tiny, .fin 0] = .fin tiny ∧
      (Spinor.save id double2 double2 short2 3 [] sampleSpinor tinySite 0).norm 0 = .fin 1 ∧
      ¬ Flt.le (fabsf (.fin tiny))
          ((Spinor.save id double2 double2 short2 3 [] sampleSpinor tinySite 0).norm 0) ∧
      ∀ v ∈ tinySite, ∀ c ∈ v,
        (Spinor.save id double2 double2 short2 3 [] sampleSpinor tinySite 0).norm 0
          ≠ fabsf c := by
  have h8 : roundTo 8 (.fin 0) = .fin 0 := roundTo_zero 8 (Or.inr rfl)
  have h4 : roundTo 4 (.fin 0) = .fin 0 := roundTo_zero 4 (Or.inl rfl)
  have htpos : (0 : ℚ) < tiny := by
    unfold tiny
    norm_num
  have htne : (1 : ℚ) ≠ tiny := by
    unfold tiny
    norm_num
  have htgt : ¬ (tiny ≤ 1) := by
    unfold tiny
    norm_num
  have hmax : max_fabs [.fin tiny, .fin 0] = .fin tiny := by
    simp [max_fabs, fabsf, fmaxf, abs_of_pos htpos, le_of_lt htpos, not_le.mpr htpos]
  have hzero : max_fabs zero2 = .fin 0 := by
    simp [max_fabs, zero2, fabsf, fmaxf]
  have hc0 : saveHalf_c0 tinySite = .fin 1 := by
    simp [saveHalf_c0, tinySite, hmax, hzero, roundTo4_tiny, h4, fmaxf]
  have hnorm : (Spinor.save id double2 double2 short2 3 [] sampleSpinor tinySite 0).norm 0
      = .fin 1 := by
    have hsave : Spinor.save id double2 double2 short2 3 [] sampleSpinor tinySite 0
        = sampleSpinor.withHalf
            (saveHalf id double2 sampleSpinor.spinor sampleSpinor.norm tinySite 0
              sampleSpinor.stride) := by
      unfold Spinor.save
      rw [if_neg (by decide), if_neg (by decide), if_pos rfl]
    rw [hsave]
    simp [Spinor.withHalf, saveHalf, write, hc0]
  refine ⟨rfl, ?_, hmax, hnorm, ?_, ?_⟩
  · intro v hv c hc
    simp only [tinySite, zero2, List.mem_cons, List.mem_singleton, List.not_mem_nil,
      or_false] at hv
    rcases hv with rfl | rfl | rfl
    · simp only [List.mem_cons, List.mem_singleton, List.not_mem_nil, or_false] at hc
      rcases hc with rfl | rfl
      · exact roundTo8_tiny
      · exact h8
    · simp only [List.mem_cons, List.mem_singleton, List.not_mem_nil, or_false, or_self] at hc
      rw [hc]
      exact h8
    · simp only [List.mem_cons, List.mem_singleton, List.not_mem_nil, or_false, or_self] at hc
      rw [hc]
      exact h8
  · rw [hnorm]
    simp [Flt.le, Flt.ble, fabsf, abs_of_pos htpos, htgt]
  · intro v hv c hc
    rw [hnorm]
    simp only [tinySite, zero2, List.mem_cons, List.mem_singleton, List.not_mem_nil,
      or_false] at hv
    rcases hv with rfl | rfl | rfl
    · simp only [List.mem_cons, List.mem_singleton, List.not_mem_nil, or_false] at hc
      rcases hc with rfl | rfl
      · simp [fabsf, abs_of_pos htpos, htne]
      · simp [fabsf]
    · simp only [List.mem_cons, List.mem_singleton, List.not_mem_nil, or_false, or_self] at hc
      rw [hc]
      simp [fabsf]
    · simp only [List.mem_cons, List.mem_singleton, List.not_mem_nil, or_false, or_self] at hc
      rw [hc]
      simp [fabsf]

/-- C4 (amended): for `M ≥ 1` sub-vectors (each with at least one component), `saveHalf`
writes to `norm[i]` the maximum over `j` of the largest absolute component of `x_i[j]`
converted to `float` (it bounds each of these values and is one of them, in the order of
`fmaxf`, where NaN is skipped), and the largest absolute component of a sub-vector bounds
the absolute value of its components and is one of them; when every component is exactly
representable as a `float`, the value written bounds the absolute value of every component
of every sub-vector and is the absolute value of one of them; no other entry of `norm`
changes. -/
theorem saveHalf_norm_is_float_max (make_shortN : Vec → Vec) (In : VecType)
    (x_o : Int → Vec) (norm : Int → Flt) (x_i : List Vec) (i stride : Int) (hM : x_i ≠ [])
    (hv : ∀ v ∈ x_i, v ≠ []) :
    (saveHalf make_shortN In x_o norm x_i i stride).2 i = saveHalf_c0 x_i ∧
      (∀ v ∈ x_i, Flt.le (roundTo 4 (max_fabs v))
        ((saveHalf make_shortN In x_o norm x_i i stride).2 i)) ∧
      (∃ v ∈ x_i,
        (saveHalf make_shortN In x_o norm x_i i stride).2 i = roundTo 4 (max_fabs v)) ∧
      (∀ v ∈ x_i, (∀ c ∈ v, Flt.le (fabsf c) (max_fabs v)) ∧ ∃ c ∈ v, max_fabs v = fabsf c) ∧
      ((∀ v ∈ x_i, ∀ c ∈ v, roundTo 4 c = c) →
        (∀ v ∈ x_i, ∀ c ∈ v,
          Flt.le (fabsf c) ((saveHalf make_shortN In x_o norm x_i i stride).2 i)) ∧
        ∃ v ∈ x_i, ∃ c ∈ v,
          (saveHalf make_shortN In x_o norm x_i i stride).2 i = fabsf c) ∧
      ∀ k, k ≠ i → (saveHalf make_shortN In x_o norm x_i i stride).2 k = norm k := by
  have hn : (saveHalf make_shortN In x_o norm x_i i stride).2 i = saveHalf_c0 x_i := by
    simp [saveHalf, write]
  obtain ⟨hub, v0, hv0, he⟩ := saveHalf_c0_spec x_i hM
  refine ⟨hn, ?_, ⟨v0, hv0, by rw [hn, he]⟩, fun v hvm => max_fabs_spec v (hv v hvm), ?_, ?_⟩
  · intro v hvm
    rw [hn]
    exact hub v hvm
  · intro hfl
    have hexact : ∀ v ∈ x_i, roundTo 4 (max_fabs v) = max_fabs v := by
      intro v hvm
      obtain ⟨c, hcm, hce⟩ := (max_fabs_spec v (hv v hvm)).2
      rw [hce]
      exact roundTo_four_fabsf c (hfl v hvm c hcm)
    constructor
    · intro v hvm c hcm
      rw [hn]
      have := hub v hvm
      rw [hexact v hvm] at this
      exact fle_trans ((max_fabs_spec v (hv v hvm)).1 c hcm) this
    · obtain ⟨c, hcm, hce⟩ := (max_fabs_spec v0 (hv v0 hv0)).2
      exact ⟨v0, hv0, c, hcm, by rw [hn, he, hexact v0 hv0, hce]⟩
  · intro k hk
    simp [saveHalf, write, hk]

/-- Witness of C4 (amended): the `float2` sub-vectors (1, -3) and (2, 0) at site 0; the scale
written is 3. -/
theorem saveHalf_norm_is_float_max_witness :
    sampleSite ≠ [] ∧ (∀ v ∈ sampleSite, v ≠ []) ∧ saveHalf_c0 sampleSite = .fin 3 ∧
      (saveHalf id float2 (fun _ => []) (fun _ => .nan) sampleSite 0 1).2 0
        = saveHalf_c0 sampleSite ∧
      ∀ k, k ≠ 0 →
        (saveHalf id float2 (fun _ => []) (fun _ => .nan) sampleSite 0 1).2 k = .nan :=
  ⟨by simp [sampleSite], by simp [sampleSite],
    by
      have e3 : roundTo 4 (.fin 3) = .fin 3 := roundTo_three 4 (Or.inl rfl)
      have e2 : roundTo 4 (.fin 2) = .fin 2 := roundTo_two 4 (Or.inl rfl)
      have m1 : max_fabs [.fin 1, .fin (-3)] = .fin 3 := by
        norm_num [max_fabs, fabsf, fmaxf]
      have m2 : max_fabs [.fin 2, .fin 0] = .fin 2 := by
        norm_num [max_fabs, fabsf, fmaxf]
      simp only [saveHalf_c0, sampleSite, List.map_cons, List.map_nil, m1, m2, e3, e2,
        List.drop_succ_cons, List.drop_zero, List.headD_cons, List.foldl_cons, List.foldl_nil,
        fmaxf]
      norm_num,
    (saveHalf_norm_is_float_max id float2 (fun _ => []) (fun _ => .nan) sampleSite 0 1
      (by simp [sampleSite]) (by simp [sampleSite])).1,
    (saveHalf_norm_is_float_max id float2 (fun _ => []) (fun _ => .nan) sampleSite 0 1
      (by simp [sampleSite]) (by simp [sampleSite])).2.2.2.2.2⟩

/-! ## `saveHalf` on an all-zero site -/

theorem fdividef_zero : fdividef MAX_SHORT (.fin 0) = .inf false := by
  have h : ¬ ((2 : ℚ) ^ 126 < |(0 : ℚ)|) := by
    rw [abs_zero]
    exact not_lt.mpr (by positivity)
  have hd : Flt.div MAX_SHORT (.fin 0) = .inf false := by
    norm_num [Flt.div, MAX_SHORT]
  unfold fdividef
  dsimp only
  rw [if_neg h, hd]
  rfl

theorem scaleVec_inf_zero (T : VecType) (v : Vec) (hz : ∀ c ∈ v, c = .fin 0) :
    scaleVec T (.inf false) v = List.replicate v.length .nan := by
  induction v with
  | nil => rfl
  | cons a as ih =>
      have ha : a = .fin 0 := hz a (List.mem_cons_self _ _)
      have := ih (fun c hc => hz c (List.mem_cons_of_mem _ hc))
      unfold scaleVec at this ⊢
      rw [List.map_cons, this, ha]
      simp [Flt.mul, roundTo, List.replicate_succ]

/-- C5 (as stated, refuted): on the all-zero input `saveHalf` has `c[0] = 0`, computes
`C = __fdividef(MAX_SHORT, 0)`, which is plus infinity, and hands the vector (NaN, NaN), the
product of infinity and zero, to `make_shortN` (shown by taking the identity for it): there
is no zero-scale special case. -/
theorem saveHalf_zero_divides_by_zero :
    saveHalf_c0 [zero2] = .fin 0 ∧
      saveHalf_C [zero2] = fdividef MAX_SHORT (.fin 0) ∧
      saveHalf_C [zero2] = .inf false ∧
      (saveHalf id float2 (fun _ => []) (fun _ => .nan) [zero2] 0 1).1 0 = [.nan, .nan] ∧
      (saveHalf id float2 (fun _ => []) (fun _ => .nan) [zero2] 0 1).1 0 ≠ zero2 := by
  have h0 : saveHalf_c0 [zero2] = .fin 0 := by
    simp [saveHalf_c0, max_fabs, zero2, fabsf, fmaxf, roundTo_zero 4 (Or.inl rfl)]
  have hC : saveHalf_C [zero2] = .inf false := by
    rw [saveHalf_C, h0, fdividef_zero]
  have hst : (saveHalf id float2 (fun _ => []) (fun _ => .nan) [zero2] 0 1).1 0
      = [.nan, .nan] := by
    simp only [saveHalf, hC, List.map_cons, List.map_nil, storeLoop, write, id]
    rw [scaleVec_inf_zero float2 zero2 (by simp [zero2])]
    simp [zero2]
  refine ⟨h0, by rw [saveHalf_C, h0], hC, hst, ?_⟩
  rw [hst]
  simp [zero2]

/-- C5 (amended): for `M ≥ 1` all-zero sub-vectors and a nonzero stride, `saveHalf` writes the
scale 0 at `norm[i]`; it has no zero-scale special case: `C` is `__fdividef(MAX_SHORT, 0)`,
plus infinity, and the element stored at `i + j*stride` is `make_shortN` of the all-NaN
vector `C * x_i[j]`. -/
theorem saveHalf_all_zero (make_shortN : Vec → Vec) (In : VecType) (x_o : Int → Vec)
    (norm : Int → Flt) (x_i : List Vec) (i stride : Int) (hM : x_i ≠ [])
    (hz : ∀ v ∈ x_i, v ≠ [] ∧ ∀ c ∈ v, c = .fin 0) (hs : stride ≠ 0) :
    (saveHalf make_shortN In x_o norm x_i i stride).2 i = .fin 0 ∧
      saveHalf_C x_i = fdividef MAX_SHORT (.fin 0) ∧
      saveHalf_C x_i = .inf false ∧
      ∀ (j : Nat) (v : Vec), x_i[j]? = some v →
        (saveHalf make_shortN In x_o norm x_i i stride).1 (i + (j : Int) * stride)
          = make_shortN (List.replicate v.length .nan) := by
  have h0 : saveHalf_c0 x_i = .fin 0 := by
    obtain ⟨_, v, hv, he⟩ := saveHalf_c0_spec x_i hM
    obtain ⟨c, hc, hce⟩ := (max_fabs_spec v (hz v hv).1).2
    rw [he, hce, (hz v hv).2 c hc]
    simp [fabsf, roundTo_zero 4 (Or.inl rfl)]
  have hC : saveHalf_C x_i = .inf false := by
    rw [saveHalf_C, h0, fdividef_zero]
  refine ⟨by simp [saveHalf, write, h0], by rw [saveHalf_C, h0], hC, ?_⟩
  intro j v hj
  have hmem : v ∈ x_i := List.getElem?_mem hj
  have hget : (x_i.map (fun xj => make_shortN (scaleVec In (saveHalf_C x_i) xj)))[j]?
      = some (make_shortN (List.replicate v.length .nan)) := by
    rw [List.getElem?_map, hj, Option.map_some', hC, scaleVec_inf_zero In v (hz v hmem).2]
  have := storeLoop_get i stride hs _ 0 x_o j _ hget
  simpa [saveHalf] using this

/-- Witness of C5 (amended): one all-zero `float2` sub-vector at site 0, stride 1. -/
theorem saveHalf_all_zero_witness :
    ([zero2] : List Vec) ≠ [] ∧ (∀ v ∈ [zero2], v ≠ [] ∧ ∀ c ∈ v, c = Flt.fin 0) ∧
      (1 : Int) ≠ 0 ∧
      (saveHalf id float2 (fun _ => []) (fun _ => .nan) [zero2] 0 1).2 0 = .fin 0 ∧
      saveHalf_C [zero2] = .inf false :=
  ⟨by simp, by simp [zero2], by decide,
    (saveHalf_all_zero id float2 (fun _ => []) (fun _ => .nan) [zero2] 0 1 (by simp)
      (by simp [zero2]) (by decide)).1,
    (saveHalf_all_zero id float2 (fun _ => []) (fun _ => .nan) [zero2] 0 1 (by simp)
      (by simp [zero2]) (by decide)).2.2.1⟩

/-! ## Scaling on load -/

/-- C6 (as stated, refuted): over a half-precision store (`short2`, for which `Precision`
reports half) `Spinor::load` returns the fetched sub-vector (1, 2) unscaled although
`norm[i] = 2`, while `SpinorTexture::load` on the same data returns (2, 4). -/
theorem spinor_load_half_unscaled :
    Precision short2 = .ok .QUDA_HALF_PRECISION ∧
      checkTypes float2 float2 short2 = .ok () ∧
      sampleSpinor.norm 0 = .fin 2 ∧
      Spinor.load float2 float2 1 sampleSpinor 0 = [[.fin 1, .fin 2]] ∧
      SpinorTexture.load float2 float2 short2 1 sampleTexture 0 = [[.fin 2, .fin 4]] ∧
      Spinor.load float2 float2 1 sampleSpinor 0
        ≠ SpinorTexture.load float2 float2 short2 1 sampleTexture 0 := by
  have h1 : Spinor.load float2 float2 1 sampleSpinor 0 = [[.fin 1, .fin 2]] := by
    simp [Spinor.load, M, VecType.sizeOf, float2, convert, regroup, copyFloatN, sampleSpinor,
      List.range_succ, roundTo_one, roundTo_two]
  have h2 : SpinorTexture.load float2 float2 short2 1 sampleTexture 0
      = [[.fin 2, .fin 4]] := by
    have e1 : roundTo 4 (.fin (2 * 1)) = .fin 2 := by
      rw [mul_one]
      exact roundTo_two 4 (Or.inl rfl)
    have e2 : roundTo 4 (.fin (2 * 2)) = .fin 4 := by
      rw [show (2 : ℚ) * 2 = 4 by norm_num]
      exact roundTo_four_val 4 (Or.inl rfl)
    simp [SpinorTexture.load, M, VecType.sizeOf, float2, short2, convert, regroup, copyFloatN,
      sampleTexture, List.range_succ, scaleVec, Flt.mul, e1, e2, roundTo_two, roundTo_four_val]
  refine ⟨rfl, rfl, rfl, h1, h2, ?_⟩
  rw [h1, h2]
  simp

/-- C6 (amended): `Spinor::load` never reads the scale array, for any stored precision, half
included: its result is the converter applied to the `M` fetched sub-vectors, each passed
through `copyFloatN` only, whatever `norm` holds. -/
theorem spinor_load_ignores_norm (Reg Inter : VecType) (N : Nat) (s : Spinor)
    (norm1 : Int → Flt) (i : Int) :
    Spinor.load Reg Inter N { s with norm := norm1 } i = Spinor.load Reg Inter N s i ∧
      Spinor.load Reg Inter N s i =
        convert Reg ((siteIndices i s.stride (M N Reg Inter)).map
          (fun k => copyFloatN Inter (s.spinor k))) N := by
  refine ⟨rfl, ?_⟩
  simp [Spinor.load, siteIndices, List.map_map, Function.comp_def]

theorem checkTypes_ok (Reg Inter Store : VecType) (h : checkTypes Reg Inter Store = .ok ()) :
    vecLength Inter = vecLength Store ∧ vecLength Reg ≠ 0 ∧ vecLength Inter ≠ 0 ∧
      vecLength Store ≠ 0 := by
  dsimp only [checkTypes] at h
  split_ifs at h with h1 h2 h3 h4 h5
  exact ⟨not_not.mp h2, h3, h4, h5⟩

theorem comps_pos_of_vecLength (T : VecType) (h : vecLength T ≠ 0) : 0 < T.comps := by
  unfold vecLength at h
  split_ifs at h
  · omega
  · exact absurd rfl h

theorem map_range_eq {β γ : Type} (l : List β) (m : Nat) (hm : l.length = m) (f : Nat → γ)
    (g : β → γ) (h : ∀ (j : Nat) (b : β), l[j]? = some b → f j = g b) :
    (List.range m).map f = l.map g := by
  apply List.ext_getElem
  · simp [hm]
  · intro n h1 h2
    simp only [List.getElem_map, List.getElem_range]
    have hn : n < l.length := by simpa using h2
    exact h n l[n] (List.getElem?_eq_getElem hn)

theorem map_copyFloatN_id (T : VecType) (Y : List Vec)
    (h : ∀ u ∈ Y, ∀ c ∈ u, roundTo T.scalarSize c = c) : Y.map (copyFloatN T) = Y := by
  induction Y with
  | nil => rfl
  | cons u us ih =>
      rw [List.map_cons, ih (fun w hw => h w (List.mem_cons_of_mem _ hw))]
      unfold copyFloatN
      rw [map_roundTo_id _ u (h u (List.mem_cons_self _ _))]

/-- The default store followed by the default load returns the register vectors, when the
`M` sub-vectors hold exactly the components of the `N` registers and every component
survives the conversions unchanged. -/
theorem saveDefault_load_roundtrip (Reg Inter Store : VecType) (N : Nat) (junk : Vec)
    (s : Spinor) (v : List Vec) (i : Int)
    (ha : 0 < Reg.comps) (hb : 0 < Inter.comps)
    (hw : Reg.scalarSize = Inter.scalarSize)
    (hm : M N Reg Inter * Inter.comps = N * Reg.comps)
    (hs : s.stride ≠ 0) (hv : v.length = N) (hvc : ∀ u ∈ v, u.length = Reg.comps)
    (hrep : ∀ u ∈ v, ∀ c ∈ u, roundTo Reg.scalarSize c = c ∧ roundTo Store.scalarSize c = c) :
    Spinor.load Reg Inter N (Spinor.saveDefault Reg Inter Store N junk s v i) i = v := by
  obtain ⟨hY1, hY2, hY3⟩ :=
    regroup_roundtrip Reg.comps Inter.comps (M N Reg Inter) ha hb v hvc (by rw [hm, hv])
  have hcomp : ∀ u ∈ regroup Inter.comps (M N Reg Inter) v.flatten, ∀ c ∈ u,
      roundTo Reg.scalarSize c = c ∧ roundTo Store.scalarSize c = c := by
    intro u hu c hc
    have hcf : c ∈ (regroup Inter.comps (M N Reg Inter) v.flatten).flatten :=
      List.mem_flatten.mpr ⟨u, hu, hc⟩
    rw [hY2] at hcf
    obtain ⟨u1, hu1, hc1⟩ := List.mem_flatten.mp hcf
    exact hrep u1 hu1 c hc1
  have hy : convert Inter v (M N Reg Inter)
      = regroup Inter.comps (M N Reg Inter) v.flatten := by
    unfold convert
    exact map_copyFloatN_id Inter _ (fun u hu c hc => by rw [← hw]; exact (hcomp u hu c hc).1)
  have hvals : (List.range (M N Reg Inter)).map
        (fun (j : Nat) => copyFloatN Store ((convert Inter v (M N Reg Inter)).getD j junk))
      = regroup Inter.comps (M N Reg Inter) v.flatten := by
    rw [hy, map_range_eq _ _ hY1 _ (copyFloatN Store)]
    · exact map_copyFloatN_id Store _ (fun u hu c hc => (hcomp u hu c hc).2)
    · intro j b hjb
      rw [List.getD_eq_getElem?_getD, hjb]
      rfl
  have hload : (List.range (M N Reg Inter)).map (fun (j : Nat) => copyFloatN Inter
        ((Spinor.saveDefault Reg Inter Store N junk s v i).spinor
          (i + (j : Int) * (Spinor.saveDefault Reg Inter Store N junk s v i).stride)))
      = regroup Inter.comps (M N Reg Inter) v.flatten := by
    rw [map_range_eq _ _ hY1 _ (copyFloatN Inter)]
    · exact map_copyFloatN_id Inter _
        (fun u hu c hc => by rw [← hw]; exact (hcomp u hu c hc).1)
    · intro j b hjb
      have hsp : (Spinor.saveDefault Reg Inter Store N junk s v i).spinor
          = storeLoop i s.stride 0 (regroup Inter.comps (M N Reg Inter) v.flatten) s.spinor := by
        unfold Spinor.saveDefault
        simp only [hvals]
      have hst : (Spinor.saveDefault Reg Inter Store N junk s v i).stride = s.stride := rfl
      rw [hsp, hst]
      have := storeLoop_get i s.stride hs _ 0 s.spinor j b hjb
      rw [Nat.zero_add] at this
      rw [this]
  unfold Spinor.load
  rw [hload]
  unfold convert
  rw [hY2, ← hv, regroup_flatten Reg.comps ha v hvc]
  exact map_copyFloatN_id Reg v (fun u hu c hc => (hrep u hu c hc).1)

/-- C8 (as stated, refuted): the triple (double2, double2, float2) is accepted by `checkTypes`
and its stored type is single precision, yet saving the register vector (1 + 2^-30, 0), whose
components are doubles, at site 1 and loading it back returns (1, 0): the store narrows to
`float`. -/
theorem roundtrip_narrowing_counterexample :
    checkTypes double2 double2 float2 = .ok () ∧
      Precision float2 = .ok .QUDA_SINGLE_PRECISION ∧
      (∀ c ∈ [Flt.fin tiny, Flt.fin 0], roundTo double2.scalarSize c = c) ∧
      0 < blankSpinor.stride ∧
      Spinor.load double2 double2 1
        (Spinor.save id double2 double2 float2 1 [] blankSpinor [[.fin tiny, .fin 0]] 1) 1
        = [[.fin 1, .fin 0]] ∧
      Spinor.load double2 double2 1
        (Spinor.save id double2 double2 float2 1 [] blankSpinor [[.fin tiny, .fin 0]] 1) 1
        ≠ [[.fin tiny, .fin 0]] := by
  have h8 : roundTo 8 (.fin 0) = .fin 0 := roundTo_zero 8 (Or.inr rfl)
  have h4 : roundTo 4 (.fin 0) = .fin 0 := roundTo_zero 4 (Or.inl rfl)
  have h81 : roundTo 8 (.fin 1) = .fin 1 := roundTo_one 8 (Or.inr rfl)
  have hne : (1 : ℚ) ≠ tiny := by
    unfold tiny
    norm_num
  have hload : Spinor.load double2 double2 1
      (Spinor.save id double2 double2 float2 1 [] blankSpinor [[.fin tiny, .fin 0]] 1) 1
      = [[.fin 1, .fin 0]] := by
    simp [Spinor.load, Spinor.save, Spinor.saveDefault, M, VecType.sizeOf, double2, float2,
      short2, float4, short4, double4, convert, regroup, copyFloatN, blankSpinor,
      List.range_succ, storeLoop, write, roundTo4_tiny, roundTo8_tiny, h8, h4, h81]
  refine ⟨rfl, rfl, ?_, by decide, hload, ?_⟩
  · intro c hc
    simp only [List.mem_cons, List.mem_singleton, List.not_mem_nil, or_false] at hc
    rcases hc with rfl | rfl
    · exact roundTo8_tiny
    · exact h8
  · rw [hload]
    simp [hne]

/-- C8 (amended): for a triple accepted by `checkTypes` whose stored scalar is not the 2-byte
type and whose register and intermediate scalar widths are equal and nonzero, for `N` with
`N * register components` a multiple of the intermediate component count, a positive stride,
any site `i`, and `N` register vectors whose components are exactly representable in the
register and in the stored scalar type, `load` at `i` after `save(v, i)` returns `v`. -/
theorem spinor_save_load_roundtrip (make_shortN : Vec → Vec) (Reg Inter Store : VecType)
    (N : Nat) (junk : Vec) (s : Spinor) (v : List Vec) (i : Int)
    (hacc : checkTypes Reg Inter Store = .ok ()) (hhalf : Store.scalarSize ≠ 2)
    (hw : Reg.scalarSize = Inter.scalarSize) (hpos : 0 < Reg.scalarSize)
    (hdiv : Inter.comps ∣ N * Reg.comps) (hs : 0 < s.stride)
    (hv : v.length = N) (hvc : ∀ u ∈ v, u.length = Reg.comps)
    (hrep : ∀ u ∈ v, ∀ c ∈ u, roundTo Reg.scalarSize c = c ∧ roundTo Store.scalarSize c = c) :
    Spinor.load Reg Inter N (Spinor.save make_shortN Reg Inter Store N junk s v i) i = v := by
  obtain ⟨_, hr, hi, _⟩ := checkTypes_ok Reg Inter Store hacc
  have ha := comps_pos_of_vecLength Reg hr
  have hb := comps_pos_of_vecLength Inter hi
  have hm : M N Reg Inter * Inter.comps = N * Reg.comps := by
    rw [M_eq_component_ratio N Reg Inter hw hpos]
    have : REG_LENGTH Reg = Reg.comps := by
      unfold REG_LENGTH VecType.sizeOf
      exact Nat.mul_div_cancel _ hpos
    rw [this, Nat.div_mul_cancel hdiv]
  have hsave : Spinor.save make_shortN Reg Inter Store N junk s v i
      = Spinor.saveDefault Reg Inter Store N junk s v i := by
    unfold Spinor.save
    rw [if_neg, if_neg, if_neg, if_neg]
    all_goals
      intro h
      simp only [Prod.mk.injEq] at h
      obtain ⟨_, _, h3, _⟩ := h
      apply hhalf
      rw [h3]
      rfl
  rw [hsave]
  exact saveDefault_load_roundtrip Reg Inter Store N junk s v i ha hb hw hm (ne_of_gt hs) hv hvc
    hrep

/-- Witness of C8 (amended): the triple (float4, float2, double2) with `N = 1`, stride 4,
site 1 and the register vector (1, 2, 3, 4). -/
theorem spinor_save_load_roundtrip_witness :
    checkTypes float4 float2 double2 = .ok () ∧ double2.scalarSize ≠ 2 ∧
      float2.comps ∣ 1 * float4.comps ∧ 0 < blankSpinor.stride ∧
      Spinor.load float4 float2 1
        (Spinor.save id float4 float2 double2 1 [] blankSpinor
          [[.fin 1, .fin 2, .fin 3, .fin 4]] 1) 1
        = [[.fin 1, .fin 2, .fin 3, .fin 4]] :=
  ⟨rfl, by decide, by decide, by decide,
    spinor_save_load_roundtrip id float4 float2 double2 1 [] blankSpinor
      [[.fin 1, .fin 2, .fin 3, .fin 4]] 1 rfl (by decide) rfl (by decide) (by decide)
      (by decide) rfl
      (by
        intro u hu
        rw [List.mem_singleton.mp hu]
        rfl)
      (by
        intro u hu c hc
        rw [List.mem_singleton.mp hu] at hc
        simp only [List.mem_cons, List.mem_singleton, List.not_mem_nil, or_false] at hc
        rcases hc with rfl | rfl | rfl | rfl
        · exact ⟨roundTo_one _ (Or.inl rfl), roundTo_one _ (Or.inr rfl)⟩
        · exact ⟨roundTo_two _ (Or.inl rfl), roundTo_two _ (Or.inr rfl)⟩
        · exact ⟨roundTo_three _ (Or.inl rfl), roundTo_three _ (Or.inr rfl)⟩
        · exact ⟨roundTo_four_val _ (Or.inl rfl), roundTo_four_val _ (Or.inr rfl)⟩)⟩

/-! ## Sites do not overlap -/

theorem spinor_load_congr (Reg Inter : VecType) (N : Nat) (s t : Spinor) (i : Int)
    (hst : s.stride = t.stride)
    (h : ∀ k ∈ siteIndices i s.stride (M N Reg Inter), s.spinor k = t.spinor k) :
    Spinor.load Reg Inter N s i = Spinor.load Reg Inter N t i := by
  unfold Spinor.load
  congr 1
  apply List.map_congr_left
  intro j hj
  rw [← hst, h _ ((mem_siteIndices _ _ _ _).mpr ⟨j, List.mem_range.mp hj, rfl⟩)]

theorem save_stride (make_shortN : Vec → Vec) (Reg Inter Store : VecType) (N : Nat)
    (junk : Vec) (s : Spinor) (x : List Vec) (i : Int) :
    (Spinor.save make_shortN Reg Inter Store N junk s x i).stride = s.stride := by
  unfold Spinor.save
  split_ifs <;> rfl

/-- C10: for a positive stride and two distinct sites `i`, `i'` below it, the index sets
`i + j*stride` and `i' + j*stride` (`j < m`) are disjoint for every `m`; `Spinor::load` at `i`
depends on the stored array only at the indices of site `i`; `Spinor::save` at `i` (the
`saveHalf` specialisations included) changes no stored element off the indices of site `i`,
hence none of site `i'`, no scale entry other than `norm[i]`, and not what `load` returns at
`i'`; `saveHalf` writes its `j`-th narrowed sub-vector at `i + j*stride` and the default
store writes its `j`-th element there. -/
theorem site_access_disjoint (stride : Int) (hs : 0 < stride) (i i' : Int)
    (hi : 0 ≤ i ∧ i < stride) (hi' : 0 ≤ i' ∧ i' < stride) (hne : i ≠ i') :
    (∀ (m : Nat) (k : Int), k ∈ siteIndices i stride m → k ∉ siteIndices i' stride m) ∧
      (∀ (Reg Inter : VecType) (N : Nat) (s t : Spinor), s.stride = stride →
        t.stride = stride →
        (∀ k ∈ siteIndices i stride (M N Reg Inter), s.spinor k = t.spinor k) →
        Spinor.load Reg Inter N s i = Spinor.load Reg Inter N t i) ∧
      (∀ (make_shortN : Vec → Vec) (Reg Inter Store : VecType) (N : Nat) (junk : Vec)
        (s : Spinor) (x : List Vec), s.stride = stride → x.length = N →
        (∀ k, k ∉ siteIndices i stride (M N Reg Inter) →
          (Spinor.save make_shortN Reg Inter Store N junk s x i).spinor k = s.spinor k) ∧
        (∀ k ∈ siteIndices i' stride (M N Reg Inter),
          (Spinor.save make_shortN Reg Inter Store N junk s x i).spinor k = s.spinor k) ∧
        (∀ k, k ≠ i →
          (Spinor.save make_shortN Reg Inter Store N junk s x i).norm k = s.norm k) ∧
        Spinor.load Reg Inter N (Spinor.save make_shortN Reg Inter Store N junk s x i) i'
          = Spinor.load Reg Inter N s i') ∧
      (∀ (make_shortN : Vec → Vec) (In : VecType) (x_o : Int → Vec) (norm : Int → Flt)
        (x_i : List Vec),
        (∀ k, k ∉ siteIndices i stride x_i.length →
          (saveHalf make_shortN In x_o norm x_i i stride).1 k = x_o k) ∧
        (∀ k ∈ siteIndices i' stride x_i.length,
          (saveHalf make_shortN In x_o norm x_i i stride).1 k = x_o k) ∧
        (∀ (j : Nat) (v : Vec), x_i[j]? = some v →
          (saveHalf make_shortN In x_o norm x_i i stride).1 (i + (j : Int) * stride)
            = make_shortN (scaleVec In (saveHalf_C x_i) v)) ∧
        (∀ k, k ≠ i → (saveHalf make_shortN In x_o norm x_i i stride).2 k = norm k)) ∧
      (∀ (Reg Inter Store : VecType) (N : Nat) (junk : Vec) (s : Spinor) (x : List Vec),
        s.stride = stride → ∀ j : Nat, j < M N Reg Inter →
          (Spinor.saveDefault Reg Inter Store N junk s x i).spinor (i + (j : Int) * stride)
            = copyFloatN Store ((convert Inter x (M N Reg Inter)).getD j junk)) := by
  have hdisj : ∀ (m : Nat) (k : Int), k ∈ siteIndices i' stride m →
      k ∉ siteIndices i stride m := by
    intro m k hk hk'
    obtain ⟨j, _, rfl⟩ := (mem_siteIndices _ _ _ _).mp hk
    obtain ⟨j', _, h⟩ := (mem_siteIndices _ _ _ _).mp hk'
    exact site_index_ne stride i i' hi hi' hne j' j h.symm
  refine ⟨fun m k hk hk' => hdisj m k hk' hk, ?_, ?_, ?_, ?_⟩
  · intro Reg Inter N s t hs1 ht1 h
    exact spinor_load_congr Reg Inter N s t i (hs1.trans ht1.symm) (by rw [hs1]; exact h)
  · intro make_shortN Reg Inter Store N junk s x hs1 hx
    obtain ⟨hf, hn⟩ := save_frame make_shortN Reg Inter Store N junk s x hx i
    rw [hs1] at hf
    have hf' : ∀ k ∈ siteIndices i' stride (M N Reg Inter),
        (Spinor.save make_shortN Reg Inter Store N junk s x i).spinor k = s.spinor k :=
      fun k hk => hf k (hdisj _ k hk)
    refine ⟨hf, hf', hn, ?_⟩
    apply spinor_load_congr
    · exact save_stride make_shortN Reg Inter Store N junk s x i
    · rw [save_stride, hs1]
      exact hf'
  · intro make_shortN In x_o norm x_i
    have hf := fun k hk =>
      saveHalf_frame make_shortN In x_o norm x_i i stride x_i.length (le_refl _) k hk
    refine ⟨hf, fun k hk => hf k (hdisj _ k hk), ?_, ?_⟩
    · intro j v hj
      have hget : (x_i.map (fun xj => make_shortN (scaleVec In (saveHalf_C x_i) xj)))[j]?
          = some (make_shortN (scaleVec In (saveHalf_C x_i) v)) := by
        rw [List.getElem?_map, hj, Option.map_some']
      have := storeLoop_get i stride (ne_of_gt hs) _ 0 x_o j _ hget
      simpa [saveHalf] using this
    · intro k hk
      exact saveHalf_norm_frame make_shortN In x_o norm x_i i stride k hk
  · intro Reg Inter Store N junk s x hs1 j hj
    have hget : ((List.range (M N Reg Inter)).map (fun (j : Nat) =>
        copyFloatN Store ((convert Inter x (M N Reg Inter)).getD j junk)))[j]?
          = some (copyFloatN Store ((convert Inter x (M N Reg Inter)).getD j junk)) := by
      rw [List.getElem?_map, List.getElem?_range hj, Option.map_some']
    have := storeLoop_get i stride (ne_of_gt hs) _ 0 s.spinor j _ hget
    rw [Nat.zero_add] at this
    simp only [Spinor.saveDefault, hs1]
    exact this

/-- Witness of C10: stride 4, sites 1 and 2, three sub-vectors. -/
theorem site_access_disjoint_witness :
    (0 : Int) < 4 ∧ ((0 : Int) ≤ 1 ∧ (1 : Int) < 4) ∧ ((0 : Int) ≤ 2 ∧ (2 : Int) < 4) ∧
      (1 : Int) ≠ 2 ∧ siteIndices 1 4 3 = [1, 5, 9] ∧
      ∀ k ∈ siteIndices 1 4 3, k ∉ siteIndices 2 4 3 :=
  ⟨by decide, by decide, by decide, by decide, by decide,
    (site_access_disjoint 4 (by decide) 1 2 (by decide) (by decide) (by decide)).1 3⟩

end Quda
